import Mathlib

/-!
Verification of the crossword CSP solver in src/generate.py
(class CrosswordCreator).

The solver works over a puzzle structure (variables/slots, word list,
overlaps) provided by crossword.py, which is imported by generate.py but is
not among the repository's source files; that data model is therefore
modelled from the spec (sections 3 and 4.1).  All algorithms
(enforce_node_consistency, revise, ac3, assignment_complete, consistent,
order_domain_values, select_unassigned_variable, backtrack, solve) are
translated directly from src/generate.py.

Modelling conventions:
- Python strings are lists of characters; indexing w[i] is total here
  (out-of-range reads return a default character).  The spec treats
  out-of-range overlap indices as a data error of the external collaborator.
- A Python set of words is a Lean list; set operations (comprehension
  filters, set difference, membership) become list filters/membership.
  The domain dictionary, whose keys are exactly the puzzle's variables,
  becomes a total function from variables to word lists; only its values on
  the puzzle's variables are ever consulted.
- Python dicts used as assignments become association lists; dict update
  for a key not yet present (the only update the search performs) conses a
  fresh pair.
- deepcopy/restore of the domain store becomes ordinary value passing:
  the saved value is the store as it was before the speculative
  restriction.
-/

/-- Modelled from the spec: crossword.py (not among the source files)
defines a Variable/slot identified by starting row and column, orientation
and length, compared by value identity (spec section 3, "Slot"). -/
structure Variable where
  i : Nat
  j : Nat
  down : Bool
  length : Nat
deriving DecidableEq

/-- A word is a string, viewed as its list of characters. -/
abbrev Word := List Char

/-- Total character access: w[i] in Python, with a default character for
out-of-range indices (which the spec rules out for well-formed puzzles). -/
def charAt (w : Word) (i : Nat) : Char :=
  w.getD i ' '

/-- Modelled from the spec: crossword.py's Crossword object as consumed by
generate.py — the set of variables, the dictionary of words, and the
overlaps table mapping an ordered pair of slots to the shared cell's index
pair, or none when the slots do not cross (spec sections 3 and 4.1). -/
structure Crossword where
  vars : List Variable
  words : List Word
  overlaps : Variable → Variable → Option (Nat × Nat)

/-- Modelled from the spec: crossword.py's neighbors query — the slots
distinct from v that share a cell with v (spec section 3, "Neighbor
relation": B is a neighbor of A iff overlap(A,B) is not "no overlap"). -/
def neighbors (c : Crossword) (v : Variable) : List Variable :=
  c.vars.filter (fun u => u != v && (c.overlaps v u).isSome)

/-- The domain store: each variable's current candidate word set
(self.domains in generate.py).  Values at non-variables are immaterial. -/
abbrev Domains := Variable → List Word

/-- CrosswordCreator.__init__: every variable's domain starts as the full
dictionary (a Python set, hence deduplicated). -/
def initialDomains (c : Crossword) : Domains :=
  fun _ => c.words.dedup

/-- CrosswordCreator.enforce_node_consistency: remove from each variable's
domain the words whose length differs from the variable's length. -/
def enforce_node_consistency (c : Crossword) (dom : Domains) : Domains :=
  fun v => if v ∈ c.vars then (dom v).filter (fun w => w.length == v.length) else dom v

/-- CrosswordCreator.revise: make x arc-consistent with y.  Removes from
domain(x) every word with no compatible word in domain(y) at the overlap;
returns whether anything was removed, together with the updated store. -/
def revise (c : Crossword) (dom : Domains) (x y : Variable) : Bool × Domains :=
  match c.overlaps x y with
  | none => (false, dom)
  | some (i, j) =>
    let hasSupport : Word → Bool := fun vx => (dom y).any (fun vy => charAt vx i == charAt vy j)
    if (dom x).all hasSupport then (false, dom)
    else (true, fun v => if v = x then (dom x).filter hasSupport else dom v)

/-- The initial worklist used when ac3 is called with arcs=None: all ordered
pairs (x, y) with y a neighbor of x. -/
def initialQueue (c : Crossword) : List (Variable × Variable) :=
  c.vars.flatMap (fun x => (neighbors c x).map (fun y => (x, y)))

/-- Total size of the domains of the puzzle's variables; strictly shrinks
whenever revise removes a word from a variable's domain. -/
def domWeight (c : Crossword) (dom : Domains) : Nat :=
  (c.vars.map (fun v => (dom v).length)).sum

/-- Weight of worklist entries whose first component is not a puzzle
variable (reachable only when a caller passes such arcs explicitly). -/
def queueWeight (c : Crossword) (dom : Domains) (queue : List (Variable × Variable)) : Nat :=
  (queue.map (fun p => if p.1 ∈ c.vars then 0 else (dom p.1).length)).sum

theorem revise_fst_false (c : Crossword) (dom : Domains) (x y : Variable)
    (h : (revise c dom x y).1 = false) : (revise c dom x y).2 = dom := by
  unfold revise at *
  cases hov : c.overlaps x y with
  | none => simp [hov]
  | some p =>
    cases p with
    | mk i j =>
      simp only [hov] at h ⊢
      by_cases hall : (dom x).all (fun vx => (dom y).any (fun vy => charAt vx i == charAt vy j))
      · simp [hall]
      · simp [hall] at h

theorem revise_snd_frame (c : Crossword) (dom : Domains) (x y v : Variable)
    (h : v ≠ x) : (revise c dom x y).2 v = dom v := by
  unfold revise
  cases hov : c.overlaps x y with
  | none => rfl
  | some p =>
    cases p with
    | mk i j =>
      by_cases hall : (dom x).all (fun vx => (dom y).any (fun vy => charAt vx i == charAt vy j))
      · simp [hall]
      · simp [hall, h]

theorem filter_length_lt_of_exists {α : Type} (l : List α) (p : α → Bool)
    (h : ¬ l.all p) : (l.filter p).length < l.length := by
  induction l with
  | nil => simp at h
  | cons a t ih =>
    simp only [List.all_cons, Bool.and_eq_true] at h
    by_cases ha : p a
    · have ht : ¬ t.all p := by
        intro hc
        exact h ⟨ha, hc⟩
      simpa [List.filter_cons, ha] using Nat.succ_lt_succ (ih ht)
    · have : (t.filter p).length ≤ t.length := List.length_filter_le _ _
      simp only [List.filter_cons, Bool.not_eq_true] at *
      simp [ha]
      omega

theorem revise_changed_shrinks (c : Crossword) (dom : Domains) (x y : Variable)
    (h : (revise c dom x y).1 = true) :
    ((revise c dom x y).2 x).length < (dom x).length := by
  unfold revise at *
  cases hov : c.overlaps x y with
  | none => simp [hov] at h
  | some p =>
    cases p with
    | mk i j =>
      simp only [hov] at h ⊢
      by_cases hall : (dom x).all (fun vx => (dom y).any (fun vy => charAt vx i == charAt vy j))
      · simp [hall] at h
      · have := filter_length_lt_of_exists (dom x)
          (fun vx => (dom y).any (fun vy => charAt vx i == charAt vy j)) hall
        simpa [hall] using this

theorem sum_lt_sum_of_mem {α : Type} (l : List α) (f g : α → Nat)
    (hle : ∀ a ∈ l, f a ≤ g a) (a0 : α) (ha0 : a0 ∈ l) (hlt : f a0 < g a0) :
    (l.map f).sum < (l.map g).sum := by
  induction l with
  | nil => simp at ha0
  | cons b t ih =>
    rcases List.mem_cons.mp ha0 with hb | ht
    · subst hb
      have : (t.map f).sum ≤ (t.map g).sum :=
        List.sum_le_sum (fun a ha => hle a (List.mem_cons_of_mem _ ha))
      simp only [List.map_cons, List.sum_cons]
      omega
    · have hfb : f b ≤ g b := hle b (List.mem_cons_self _ _)
      have := ih (fun a ha => hle a (List.mem_cons_of_mem _ ha)) ht
      simp only [List.map_cons, List.sum_cons]
      omega

theorem mem_neighbors (c : Crossword) (x u : Variable) (h : u ∈ neighbors c x) :
    u ∈ c.vars ∧ u ≠ x ∧ (c.overlaps x u).isSome := by
  unfold neighbors at h
  have := List.of_mem_filter h
  simp only [Bool.and_eq_true, bne_iff_ne, ne_eq] at this
  exact ⟨List.mem_of_mem_filter h, this.1, this.2⟩

/-- CrosswordCreator.ac3: worklist propagation.  Pops (x, y) from the front;
if revise(x, y) changed something and domain(x) emptied, fail; otherwise
re-enqueue (z, x) for every neighbor z of x other than y.  Returns the
success flag and the final domain store (generate.py mutates self.domains
in place; the caller keeps the mutated store even on failure). -/
def ac3 (c : Crossword) (dom : Domains) (queue : List (Variable × Variable)) : Bool × Domains :=
  match queue with
  | [] => (true, dom)
  | (x, y) :: rest =>
    if (revise c dom x y).1 then
      if ((revise c dom x y).2 x).length = 0 then (false, (revise c dom x y).2)
      else ac3 c (revise c dom x y).2
        (rest ++ ((neighbors c x).filter (fun z => z != y)).map (fun z => (z, x)))
    else ac3 c dom rest
termination_by (domWeight c dom + queueWeight c dom queue, queue.length)
decreasing_by
  · rename_i hch hne
    have hshrink : ((revise c dom x y).2 x).length < (dom x).length :=
      revise_changed_shrinks c dom x y hch
    have hframe : ∀ v, v ≠ x → (revise c dom x y).2 v = dom v := by
      intro v hv
      exact revise_snd_frame c dom x y v hv
    have hle : ∀ v, ((revise c dom x y).2 v).length ≤ (dom v).length := by
      intro v
      by_cases hv : v = x
      · subst hv
        omega
      · rw [hframe v hv]
    apply Prod.Lex.left
    by_cases hx : x ∈ c.vars
    · -- x is a puzzle variable: domWeight strictly shrinks, queueWeight does not grow
      have h1 : domWeight c (revise c dom x y).2 < domWeight c dom := by
        unfold domWeight
        exact sum_lt_sum_of_mem _ _ _ (fun v _ => hle v) x hx hshrink
      have h2 : queueWeight c (revise c dom x y).2
          (rest ++ ((neighbors c x).filter (fun z => z != y)).map (fun z => (z, x)))
          ≤ queueWeight c dom ((x, y) :: rest) := by
        unfold queueWeight
        rw [List.map_append, List.sum_append]
        have hnew : ((((neighbors c x).filter (fun z => z != y)).map (fun z => (z, x))).map
            (fun p => if p.1 ∈ c.vars then 0 else ((revise c dom x y).2 p.1).length)).sum = 0 := by
          apply List.sum_eq_zero
          intro n hn
          simp only [List.map_map, List.mem_map] at hn
          obtain ⟨z, hz, hzn⟩ := hn
          have hzvar : z ∈ c.vars := (mem_neighbors c x z (List.mem_of_mem_filter hz)).1
          simp only [Function.comp] at hzn
          rw [if_pos hzvar] at hzn
          omega
        have hrest : ((rest.map (fun p => if p.1 ∈ c.vars then 0 else ((revise c dom x y).2 p.1).length))).sum
            ≤ ((rest.map (fun p => if p.1 ∈ c.vars then 0 else (dom p.1).length))).sum := by
          apply List.sum_le_sum
          intro p _
          by_cases hp : p.1 ∈ c.vars
          · simp [hp]
          · simp only [if_neg hp]
            exact hle p.1
        simp only [List.map_cons, List.sum_cons]
        omega
      omega
    · -- x is not a puzzle variable: its popped entry's weight covers the shrinkage
      have h1 : domWeight c (revise c dom x y).2 = domWeight c dom := by
        unfold domWeight
        congr 1
        apply List.map_congr_left
        intro v hv
        have : v ≠ x := by
          intro hvx
          subst hvx
          exact hx hv
        rw [hframe v this]
      have h2 : queueWeight c (revise c dom x y).2
          (rest ++ ((neighbors c x).filter (fun z => z != y)).map (fun z => (z, x)))
          < queueWeight c dom ((x, y) :: rest) := by
        unfold queueWeight
        rw [List.map_append, List.sum_append]
        have hnew : ((((neighbors c x).filter (fun z => z != y)).map (fun z => (z, x))).map
            (fun p => if p.1 ∈ c.vars then 0 else ((revise c dom x y).2 p.1).length)).sum = 0 := by
          apply List.sum_eq_zero
          intro n hn
          simp only [List.map_map, List.mem_map] at hn
          obtain ⟨z, hz, hzn⟩ := hn
          have hzvar : z ∈ c.vars := (mem_neighbors c x z (List.mem_of_mem_filter hz)).1
          simp only [Function.comp] at hzn
          rw [if_pos hzvar] at hzn
          omega
        have hrest : ((rest.map (fun p => if p.1 ∈ c.vars then 0 else ((revise c dom x y).2 p.1).length))).sum
            ≤ ((rest.map (fun p => if p.1 ∈ c.vars then 0 else (dom p.1).length))).sum := by
          apply List.sum_le_sum
          intro p _
          by_cases hp : p.1 ∈ c.vars
          · simp [hp]
          · simp only [if_neg hp]
            exact hle p.1
        simp only [List.map_cons, List.sum_cons, if_neg hx]
        omega
      omega
  · apply Prod.Lex.right'
    · unfold queueWeight
      simp only [List.map_cons, List.sum_cons]
      omega
    · simp

theorem ac3_nil (c : Crossword) (dom : Domains) : ac3 c dom [] = (true, dom) := by
  simp [ac3]

theorem ac3_cons_false (c : Crossword) (dom : Domains) (x y : Variable)
    (rest : List (Variable × Variable)) (hch : (revise c dom x y).1 = false) :
    ac3 c dom ((x, y) :: rest) = ac3 c dom rest := by
  rw [ac3.eq_def]
  simp [hch]

theorem ac3_cons_empty (c : Crossword) (dom : Domains) (x y : Variable)
    (rest : List (Variable × Variable)) (hch : (revise c dom x y).1 = true)
    (hempty : ((revise c dom x y).2 x).length = 0) :
    ac3 c dom ((x, y) :: rest) = (false, (revise c dom x y).2) := by
  rw [ac3.eq_def]
  simp [hch, hempty]

theorem ac3_cons_step (c : Crossword) (dom : Domains) (x y : Variable)
    (rest : List (Variable × Variable)) (hch : (revise c dom x y).1 = true)
    (hne : ¬ ((revise c dom x y).2 x).length = 0) :
    ac3 c dom ((x, y) :: rest) =
      ac3 c (revise c dom x y).2
        (rest ++ ((neighbors c x).filter (fun z => z != y)).map (fun z => (z, x))) := by
  rw [ac3.eq_def]
  simp [hch, hne]

/-- A partial assignment: Python dict from variable to word, as an
association list (the search only ever adds keys not yet present). -/
abbrev Assign := List (Variable × Word)

/-- Dict lookup (assignment[v], and the "v in assignment" test via isSome). -/
def lookupA (a : Assign) (v : Variable) : Option Word :=
  match a with
  | [] => none
  | (u, w) :: rest => if u = v then some w else lookupA rest v

/-- CrosswordCreator.assignment_complete: set(assignment.keys()) equals
set(crossword.variables). -/
def assignment_complete (c : Crossword) (a : Assign) : Bool :=
  c.vars.all (fun v => (lookupA a v).isSome) && a.all (fun p => decide (p.1 ∈ c.vars))

/-- CrosswordCreator.consistent: assigned words are pairwise distinct, have
the correct lengths, and agree with every assigned neighbor at the overlap. -/
def consistent (c : Crossword) (a : Assign) : Bool :=
  let values := a.map (fun p => p.2)
  (values.dedup.length == values.length) &&
  a.all (fun p =>
    (p.2.length == p.1.length) &&
    (neighbors c p.1).all (fun nb =>
      match lookupA a nb with
      | none => true
      | some nbw =>
        match c.overlaps p.1 nb with
        | none => true
        | some (i, j) => charAt p.2 i == charAt nbw j))

/-- The inner counting function of CrosswordCreator.order_domain_values:
how many words the candidate value would rule out across the unassigned
neighbors' domains. -/
def ruled_out_count (c : Crossword) (dom : Domains) (var : Variable) (a : Assign)
    (value : Word) : Nat :=
  ((neighbors c var).map (fun nb =>
    if (lookupA a nb).isSome then 0
    else
      match c.overlaps var nb with
      | none => 0
      | some (i, j) => ((dom nb).filter (fun w => !(charAt value i == charAt w j))).length)).sum

/-- CrosswordCreator.order_domain_values: the variable's domain sorted
ascending by ruled_out_count (least-constraining value first). -/
def order_domain_values (c : Crossword) (dom : Domains) (var : Variable) (a : Assign) :
    List Word :=
  (dom var).mergeSort
    (fun v1 v2 => ruled_out_count c dom var a v1 ≤ ruled_out_count c dom var a v2)

/-- Strict comparison of Python's key_fn tuples (len(domain), -degree):
v beats w when its domain is smaller, or equally small with more neighbors. -/
def betterKey (c : Crossword) (dom : Domains) (v w : Variable) : Bool :=
  (dom v).length < (dom w).length ||
    ((dom v).length == (dom w).length && (neighbors c w).length < (neighbors c v).length)

/-- CrosswordCreator.select_unassigned_variable: among the unassigned
variables, the first one minimal for (domain size, -degree); none when all
variables are assigned. -/
def select_unassigned_variable (c : Crossword) (dom : Domains) (a : Assign) : Option Variable :=
  match c.vars.filter (fun v => (lookupA a v).isNone) with
  | [] => none
  | u :: rest => some (rest.foldl (fun best v => if betterKey c dom v best then v else best) u)

/-- Number of crossword variables not yet assigned; the measure that shrinks
at every recursive call of the search. -/
def unassignedCount (c : Crossword) (a : Assign) : Nat :=
  (c.vars.filter (fun v => (lookupA a v).isNone)).length

theorem foldl_pick_mem {α : Type} (p : α → α → Bool) (u : α) (rest : List α) :
    rest.foldl (fun best v => if p v best then v else best) u ∈ u :: rest := by
  induction rest generalizing u with
  | nil => simp
  | cons b t ih =>
    simp only [List.foldl_cons]
    by_cases hb : p b u = true
    · rw [if_pos hb]
      rcases List.mem_cons.mp (ih b) with h | h
      · rw [h]
        simp
      · exact List.mem_cons_of_mem _ (List.mem_cons_of_mem _ h)
    · rw [if_neg hb]
      rcases List.mem_cons.mp (ih u) with h | h
      · rw [h]
        simp
      · exact List.mem_cons_of_mem _ (List.mem_cons_of_mem _ h)

theorem select_unassigned_spec (c : Crossword) (dom : Domains) (a : Assign) (v : Variable)
    (h : select_unassigned_variable c dom a = some v) :
    lookupA a v = none ∧ v ∈ c.vars := by
  unfold select_unassigned_variable at h
  cases hf : c.vars.filter (fun v => (lookupA a v).isNone) with
  | nil =>
    rw [hf] at h
    simp at h
  | cons u rest =>
    rw [hf] at h
    simp only [Option.some.injEq] at h
    have hmem : v ∈ u :: rest := h ▸ foldl_pick_mem _ u rest
    rw [← hf] at hmem
    have h1 := List.of_mem_filter hmem
    simp only [Option.isNone_iff_eq_none] at h1
    exact ⟨h1, List.mem_of_mem_filter hmem⟩

theorem filter_mono_length {α : Type} (l : List α) (p q : α → Bool)
    (himp : ∀ x ∈ l, q x = true → p x = true) :
    (l.filter q).length ≤ (l.filter p).length := by
  have := List.countP_mono_left himp
  simpa [List.countP_eq_length_filter] using this

theorem filter_length_lt {α : Type} (l : List α) (p q : α → Bool)
    (himp : ∀ x ∈ l, q x = true → p x = true) (x0 : α) (h0 : x0 ∈ l)
    (hp : p x0 = true) (hq : q x0 = false) :
    (l.filter q).length < (l.filter p).length := by
  induction l with
  | nil => simp at h0
  | cons b t ih =>
    have himpt : ∀ x ∈ t, q x = true → p x = true :=
      fun x hx => himp x (List.mem_cons_of_mem _ hx)
    rw [List.filter_cons, List.filter_cons]
    rcases List.mem_cons.mp h0 with hb | ht
    · subst hb
      rw [hp, hq]
      have hle := filter_mono_length t p q himpt
      simp
      omega
    · have hlt := ih himpt ht
      cases hqb : q b with
      | true =>
        rw [himp b (List.mem_cons_self _ _) hqb]
        simp
        omega
      | false =>
        cases hpb : p b with
        | true =>
          simp
          omega
        | false =>
          simp
          omega

theorem unassignedCount_cons_lt (c : Crossword) (a : Assign) (v : Variable) (w : Word)
    (hv : v ∈ c.vars) (hnone : lookupA a v = none) :
    unassignedCount c ((v, w) :: a) < unassignedCount c a := by
  unfold unassignedCount
  apply filter_length_lt
  · intro x _ hx
    simp only [lookupA, Option.isNone_iff_eq_none] at hx
    by_cases hvx : v = x
    · simp [hvx] at hx
    · rw [if_neg hvx] at hx
      simp [hx]
  · exact hv
  · simp [hnone]
  · simp [lookupA]

mutual
/-- CrosswordCreator.backtrack: depth-first search for a complete
assignment.  Returns the search result together with the final domain
store (generate.py mutates self.domains; on failure the store has been
restored from the deep-copied snapshots). -/
def backtrack (c : Crossword) (dom : Domains) (a : Assign) : Option Assign × Domains :=
  if assignment_complete c a then (some a, dom)
  else
    match hsel : select_unassigned_variable c dom a with
    | none => (none, dom)
    | some var =>
      tryValues c var (order_domain_values c dom var a) dom a
        (select_unassigned_spec c dom a var hsel)
termination_by (unassignedCount c a + 1, 0)
decreasing_by
  apply Prod.Lex.left
  omega

/-- The candidate-value loop inside CrosswordCreator.backtrack: extend the
assignment with the next value; if the extension is consistent, snapshot
the store, restrict var's domain to the singleton, rerun AC-3 and recurse;
on failure restore the snapshot (continue with dom) and try the next value.
The hypothesis h records that the selected variable is an unassigned
crossword variable, which bounds the recursion. -/
def tryValues (c : Crossword) (var : Variable) (vals : List Word) (dom : Domains) (a : Assign)
    (h : lookupA a var = none ∧ var ∈ c.vars) : Option Assign × Domains :=
  match vals with
  | [] => (none, dom)
  | value :: rest =>
    let a2 : Assign := (var, value) :: a
    if consistent c a2 then
      let dom1 : Domains := fun v => if v = var then [value] else dom v
      match ac3 c dom1 (initialQueue c) with
      | (true, dom2) =>
        match backtrack c dom2 a2 with
        | (some result, dom3) => (some result, dom3)
        | (none, _) => tryValues c var rest dom a h
      | (false, _) => tryValues c var rest dom a h
    else tryValues c var rest dom a h
termination_by (unassignedCount c a, vals.length)
decreasing_by
  · have hlt := unassignedCount_cons_lt c a var value h.2 h.1
    apply Prod.Lex.right'
    · omega
    · simp
  all_goals
    apply Prod.Lex.right
    simp
end

/-- CrosswordCreator.solve: enforce node consistency, run a global AC-3
pass (its Boolean result is not consulted, but its narrowing of the domain
store is kept), then backtrack from the empty assignment. -/
def solve (c : Crossword) : Option Assign :=
  let dom1 := enforce_node_consistency c (initialDomains c)
  let dom2 := (ac3 c dom1 (initialQueue c)).2
  (backtrack c dom2 []).1

/-- The ac3 worklist loop as a step-indexed iteration: one unit of fuel per
loop iteration, returning none when the fuel runs out first.  Used to state
that the propagation loop terminates on every input. -/
def ac3Fuel (c : Crossword) : Nat → Domains → List (Variable × Variable) → Option (Bool × Domains)
  | 0, _, _ => none
  | fuel + 1, dom, queue =>
    match queue with
    | [] => some (true, dom)
    | (x, y) :: rest =>
      if (revise c dom x y).1 then
        if ((revise c dom x y).2 x).length = 0 then some (false, (revise c dom x y).2)
        else ac3Fuel c fuel (revise c dom x y).2
          (rest ++ ((neighbors c x).filter (fun z => z != y)).map (fun z => (z, x)))
      else ac3Fuel c fuel dom rest

/-- Modelled from the spec: the overlaps table of a well-formed puzzle is
index-consistent between the two orientations of a pair (spec section 3,
"Overlap": iA for the first is iB for the second). -/
def SymmOverlaps (c : Crossword) : Prop :=
  ∀ x y i j, c.overlaps x y = some (i, j) → c.overlaps y x = some (j, i)

/-- Concrete test fixtures (used to exhibit the theorems on computable
inputs): a horizontal and a vertical length-3 slot, a vertical length-1
slot, and the words cat and dog. -/
def vA3 : Variable := ⟨0, 0, false, 3⟩

def vD3 : Variable := ⟨0, 0, true, 3⟩

def vB1 : Variable := ⟨0, 0, true, 1⟩

def wCAT : Word := ['c', 'a', 't']

def wDOG : Word := ['d', 'o', 'g']

/-- A one-slot puzzle with dictionary containing cat only. -/
def cwOne : Crossword := ⟨[vA3], [wCAT], fun _ _ => none⟩

/-- A one-slot puzzle with an empty dictionary. -/
def cwEmpty : Crossword := ⟨[vA3], [], fun _ _ => none⟩

/-- Two length-3 slots crossing at their first characters, dictionary cat
and dog. -/
def ovSym : Variable → Variable → Option (Nat × Nat) := fun u v =>
  if (u = vA3 && v = vD3) || (u = vD3 && v = vA3) then some (0, 0) else none

def cwTwo : Crossword := ⟨[vA3, vD3], [wCAT, wDOG], ovSym⟩

/-- A length-3 slot crossing a length-1 slot, dictionary cat only: node
consistency empties the length-1 slot's domain and the global AC-3 pass
fails. -/
def ovFail : Variable → Variable → Option (Nat × Nat) := fun u v =>
  if (u = vA3 && v = vB1) || (u = vB1 && v = vA3) then some (0, 0) else none

def cwFail : Crossword := ⟨[vA3, vB1], [wCAT], ovFail⟩

theorem betterKey_eq_true (c : Crossword) (dom : Domains) (v w : Variable) :
    betterKey c dom v w = true ↔
      ((dom v).length < (dom w).length ∨
        ((dom v).length = (dom w).length ∧ (neighbors c w).length < (neighbors c v).length)) := by
  simp [betterKey]

theorem betterKey_false_iff (c : Crossword) (dom : Domains) (v w : Variable) :
    betterKey c dom v w = false ↔
      ((dom w).length ≤ (dom v).length ∧
        ((dom v).length = (dom w).length → (neighbors c v).length ≤ (neighbors c w).length)) := by
  rw [Bool.eq_false_iff, Ne, betterKey_eq_true]
  omega

theorem foldl_pick_min (c : Crossword) (dom : Domains) :
    ∀ (rest : List Variable) (u w : Variable), w ∈ u :: rest →
      betterKey c dom w
        (rest.foldl (fun best v => if betterKey c dom v best then v else best) u) = false := by
  intro rest
  induction rest with
  | nil =>
    intro u w hw
    simp only [List.mem_singleton] at hw
    rw [hw, List.foldl_nil, betterKey_false_iff]
    omega
  | cons b t ih =>
    intro u w hw
    simp only [List.foldl_cons]
    by_cases hb : betterKey c dom b u = true
    · rw [if_pos hb]
      rcases List.mem_cons.mp hw with hwu | hw2
      · rw [hwu]
        have hbf := ih b b (List.mem_cons_self _ _)
        rw [betterKey_false_iff] at hbf ⊢
        rw [betterKey_eq_true] at hb
        omega
      · exact ih b w hw2
    · rw [if_neg hb]
      rcases List.mem_cons.mp hw with hwu | hw2
      · rw [hwu]
        exact ih u u (List.mem_cons_self _ _)
      · rcases List.mem_cons.mp hw2 with hwb | hw3
        · rw [hwb]
          have hur := ih u u (List.mem_cons_self _ _)
          rw [betterKey_eq_true] at hb
          rw [betterKey_false_iff] at hur ⊢
          omega
        · exact ih u w (List.mem_cons_of_mem _ hw3)

/-- C8.  MRV with degree tie-break: with at least one unassigned variable,
select_unassigned_variable returns an unassigned crossword variable whose
domain size is minimal among the unassigned variables, and whose neighbor
count is maximal among the unassigned variables attaining that minimal
domain size. -/
theorem claim_C8 (c : Crossword) (dom : Domains) (a : Assign)
    (hne : c.vars.filter (fun v => (lookupA a v).isNone) ≠ []) :
    ∃ v, select_unassigned_variable c dom a = some v ∧
      v ∈ c.vars ∧ lookupA a v = none ∧
      ∀ w ∈ c.vars, lookupA a w = none →
        (dom v).length ≤ (dom w).length ∧
        ((dom w).length = (dom v).length →
          (neighbors c w).length ≤ (neighbors c v).length) := by
  cases hf : c.vars.filter (fun v => (lookupA a v).isNone) with
  | nil => exact absurd hf hne
  | cons u rest =>
    have hsel : select_unassigned_variable c dom a =
        some (rest.foldl (fun best v => if betterKey c dom v best then v else best) u) := by
      unfold select_unassigned_variable
      rw [hf]
    refine ⟨_, hsel, ?_, ?_, ?_⟩
    · have := select_unassigned_spec c dom a _ hsel
      exact this.2
    · have := select_unassigned_spec c dom a _ hsel
      exact this.1
    · intro w hwv hwn
      have hwmem : w ∈ u :: rest := by
        rw [← hf]
        apply List.mem_filter.mpr
        exact ⟨hwv, by simp [hwn]⟩
      have := foldl_pick_min c dom rest u w hwmem
      rw [betterKey_false_iff] at this
      omega

/-- C9.  Least-constraining-value ordering: order_domain_values returns a
permutation of var's current domain, sorted ascending by ruled_out_count —
the number of words the candidate would eliminate from the domains of var's
unassigned overlapping neighbors. -/
theorem claim_C9 (c : Crossword) (dom : Domains) (var : Variable) (asg : Assign) :
    (order_domain_values c dom var asg).Perm (dom var) ∧
    (order_domain_values c dom var asg).Pairwise
      (fun v1 v2 => ruled_out_count c dom var asg v1 ≤ ruled_out_count c dom var asg v2) := by
  constructor
  · exact List.mergeSort_perm (dom var) _
  · have hs := @List.sorted_mergeSort Word
      (fun v1 v2 => decide (ruled_out_count c dom var asg v1 ≤ ruled_out_count c dom var asg v2))
      (fun x y z hxy hyz => by
        simp only [decide_eq_true_eq] at hxy hyz ⊢
        omega)
      (fun x y => by
        simp only [Bool.or_eq_true, decide_eq_true_eq]
        omega)
      (dom var)
    exact hs.imp (fun h => by simpa using h)

/-- C10.  Frame property of revise(x, y): the domains of all variables other
than x are unchanged, and when x and y do not overlap, revise reports no
change and leaves the whole store unchanged. -/
theorem claim_C10 (c : Crossword) (dom : Domains) (x y : Variable) :
    (∀ v, v ≠ x → (revise c dom x y).2 v = dom v) ∧
    (c.overlaps x y = none → revise c dom x y = (false, dom)) := by
  constructor
  · intro v hv
    exact revise_snd_frame c dom x y v hv
  · intro hov
    unfold revise
    rw [hov]

theorem revise_sub (c : Crossword) (dom : Domains) (x y v : Variable) (w : Word)
    (hw : w ∈ (revise c dom x y).2 v) : w ∈ dom v := by
  by_cases hv : v = x
  · subst hv
    unfold revise at hw
    cases hov : c.overlaps v y with
    | none =>
      rw [hov] at hw
      exact hw
    | some p =>
      cases p with
      | mk i j =>
        rw [hov] at hw
        by_cases hall : (dom v).all (fun vx => (dom y).any (fun vy => charAt vx i == charAt vy j))
        · simp only [hall, if_true] at hw
          exact hw
        · simp only [hall, if_false, if_pos rfl] at hw
          simp only [if_neg, Bool.false_eq_true] at hw
          have : w ∈ (dom v).filter (fun vx => (dom y).any (fun vy => charAt vx i == charAt vy j)) := by
            simpa using hw
          exact List.mem_of_mem_filter this
  · rw [revise_snd_frame c dom x y v hv] at hw
    exact hw

theorem ac3_snd_sub (c : Crossword) (dom : Domains) (queue : List (Variable × Variable)) :
    ∀ v w, w ∈ (ac3 c dom queue).2 v → w ∈ dom v := by
  induction dom, queue using ac3.induct c with
  | case1 dom =>
    intro v w hw
    rw [ac3_nil] at hw
    exact hw
  | case2 dom x y rest hch hempty =>
    intro v w hw
    rw [ac3_cons_empty c dom x y rest hch hempty] at hw
    exact revise_sub c dom x y v w hw
  | case3 dom x y rest hch hne ih =>
    intro v w hw
    rw [ac3_cons_step c dom x y rest hch hne] at hw
    exact revise_sub c dom x y v w (ih v w hw)
  | case4 dom x y rest hch ih =>
    intro v w hw
    rw [ac3_cons_false c dom x y rest (Bool.not_eq_true _ ▸ hch)] at hw
    exact ih v w hw

/-- Every word in a crossword variable's domain has that variable's length
(the node-consistency invariant of the domain store). -/
def lenOK (c : Crossword) (dom : Domains) : Prop :=
  ∀ v ∈ c.vars, ∀ w ∈ dom v, w.length = v.length

theorem lenOK_enforce (c : Crossword) (dom : Domains) :
    lenOK c (enforce_node_consistency c dom) := by
  intro v hv w hw
  unfold enforce_node_consistency at hw
  rw [if_pos hv] at hw
  have := List.of_mem_filter hw
  simpa using this

theorem lenOK_revise (c : Crossword) (dom : Domains) (x y : Variable)
    (h : lenOK c dom) : lenOK c (revise c dom x y).2 := by
  intro v hv w hw
  exact h v hv w (revise_sub c dom x y v w hw)

theorem lenOK_ac3 (c : Crossword) (dom : Domains) (queue : List (Variable × Variable))
    (h : lenOK c dom) : lenOK c (ac3 c dom queue).2 := by
  intro v hv w hw
  exact h v hv w (ac3_snd_sub c dom queue v w hw)

theorem lenOK_restrict (c : Crossword) (dom : Domains) (var : Variable) (value : Word)
    (hval : value ∈ dom var) (h : lenOK c dom) :
    lenOK c (fun v => if v = var then [value] else dom v) := by
  intro v hv w hw
  simp only [] at hw
  by_cases hvv : v = var
  · rw [hvv] at hw hv ⊢
    rw [if_pos rfl] at hw
    simp only [List.mem_singleton] at hw
    rw [hw]
    exact h var hv value hval
  · rw [if_neg hvv] at hw
    exact h v hv w hw

theorem consistent_head_length (c : Crossword) (a : Assign) (var : Variable) (value : Word)
    (h : consistent c ((var, value) :: a) = true) : value.length = var.length := by
  unfold consistent at h
  rw [Bool.and_eq_true] at h
  have h2 := List.all_eq_true.mp h.2 (var, value) (List.mem_cons_self _ _)
  rw [Bool.and_eq_true] at h2
  simpa using h2.1

theorem tryValues_nil (c : Crossword) (var : Variable) (dom : Domains) (a : Assign)
    (h : lookupA a var = none ∧ var ∈ c.vars) :
    tryValues c var [] dom a h = (none, dom) := by
  simp [tryValues]

theorem tryValues_cons_incons (c : Crossword) (var : Variable) (value : Word) (rest : List Word)
    (dom : Domains) (a : Assign) (h : lookupA a var = none ∧ var ∈ c.vars)
    (hcons : consistent c ((var, value) :: a) = false) :
    tryValues c var (value :: rest) dom a h = tryValues c var rest dom a h := by
  rw [tryValues.eq_def]
  simp [hcons]

theorem tryValues_cons_ac3false (c : Crossword) (var : Variable) (value : Word) (rest : List Word)
    (dom : Domains) (a : Assign) (h : lookupA a var = none ∧ var ∈ c.vars) (snd : Domains)
    (hcons : consistent c ((var, value) :: a) = true)
    (hac3 : ac3 c (fun v => if v = var then [value] else dom v) (initialQueue c) = (false, snd)) :
    tryValues c var (value :: rest) dom a h = tryValues c var rest dom a h := by
  rw [tryValues.eq_def]
  simp only [hcons, if_true, hac3]

theorem tryValues_cons_rec_none (c : Crossword) (var : Variable) (value : Word) (rest : List Word)
    (dom : Domains) (a : Assign) (h : lookupA a var = none ∧ var ∈ c.vars)
    (dom2 snd : Domains)
    (hcons : consistent c ((var, value) :: a) = true)
    (hac3 : ac3 c (fun v => if v = var then [value] else dom v) (initialQueue c) = (true, dom2))
    (hbt : backtrack c dom2 ((var, value) :: a) = (none, snd)) :
    tryValues c var (value :: rest) dom a h = tryValues c var rest dom a h := by
  rw [tryValues.eq_def]
  simp only [hcons, if_true, hac3, hbt]

theorem tryValues_cons_rec_some (c : Crossword) (var : Variable) (value : Word) (rest : List Word)
    (dom : Domains) (a : Assign) (h : lookupA a var = none ∧ var ∈ c.vars)
    (dom2 dom3 : Domains) (result : Assign)
    (hcons : consistent c ((var, value) :: a) = true)
    (hac3 : ac3 c (fun v => if v = var then [value] else dom v) (initialQueue c) = (true, dom2))
    (hbt : backtrack c dom2 ((var, value) :: a) = (some result, dom3)) :
    tryValues c var (value :: rest) dom a h = (some result, dom3) := by
  rw [tryValues.eq_def]
  simp only [hcons, if_true, hac3, hbt]

theorem backtrack_complete_eq (c : Crossword) (dom : Domains) (a : Assign)
    (hcomp : assignment_complete c a = true) :
    backtrack c dom a = (some a, dom) := by
  rw [backtrack.eq_def]
  simp [hcomp]

theorem backtrack_selnone (c : Crossword) (dom : Domains) (a : Assign)
    (hcomp : assignment_complete c a = false)
    (hsel : select_unassigned_variable c dom a = none) :
    backtrack c dom a = (none, dom) := by
  rw [backtrack.eq_def]
  simp only [hcomp, Bool.false_eq_true, if_false]
  split
  · rfl
  · rename_i var hsel2
    rw [hsel] at hsel2
    cases hsel2

theorem backtrack_selsome (c : Crossword) (dom : Domains) (a : Assign) (var : Variable)
    (hcomp : assignment_complete c a = false)
    (hsel : select_unassigned_variable c dom a = some var) :
    backtrack c dom a =
      tryValues c var (order_domain_values c dom var a) dom a
        (select_unassigned_spec c dom a var hsel) := by
  rw [backtrack.eq_def]
  simp only [hcomp, Bool.false_eq_true, if_false]
  split
  · rename_i hsel2
    rw [hsel] at hsel2
    cases hsel2
  · rename_i var2 hsel2
    have : var2 = var := by
      rw [hsel] at hsel2
      exact (Option.some.inj hsel2).symm
    subst this
    rfl

theorem lenOK_backtrack (c : Crossword) (dom : Domains) (a : Assign) :
    lenOK c dom → lenOK c (backtrack c dom a).2 := by
  refine @backtrack.induct c
    (fun dom a => lenOK c dom → lenOK c (backtrack c dom a).2)
    (fun var vals dom a hs => lenOK c dom → lenOK c (tryValues c var vals dom a hs).2)
    ?_ ?_ ?_ ?_ ?_ ?_ ?_ ?_ dom a
  · intro dom a hcomp hlen
    rw [backtrack_complete_eq c dom a hcomp]
    exact hlen
  · intro dom a hcomp hsel hlen
    rw [backtrack_selnone c dom a (Bool.eq_false_iff.mpr hcomp) hsel]
    exact hlen
  · intro dom a hcomp var hsel ih hlen
    rw [backtrack_selsome c dom a var (Bool.eq_false_iff.mpr hcomp) hsel]
    exact ih hlen
  · intro var dom a hs hlen
    rw [tryValues_nil]
    exact hlen
  · intro var dom a hs value rest a2 hcons dom1 dom2 hac3 result dom3 hbt ih hlen
    have hconsg : consistent c ((var, value) :: a) = true := hcons
    have hac3g : ac3 c (fun v => if v = var then [value] else dom v) (initialQueue c)
        = (true, dom2) := hac3
    have hbtg : backtrack c dom2 ((var, value) :: a) = (none, dom3) → True := fun _ => trivial
    have hbtg2 : backtrack c dom2 ((var, value) :: a) = (some result, dom3) := hbt
    have ihg : lenOK c dom2 → lenOK c (backtrack c dom2 ((var, value) :: a)).2 := ih
    rw [tryValues_cons_rec_some c var value rest dom a hs dom2 dom3 result hconsg hac3g hbtg2]
    have hlen1 : lenOK c (fun v => if v = var then [value] else dom v) := by
      intro v hv w hw
      simp only [] at hw
      by_cases hvv : v = var
      · rw [hvv] at hw hv ⊢
        rw [if_pos rfl] at hw
        simp only [List.mem_singleton] at hw
        rw [hw]
        exact consistent_head_length c a var value hconsg
      · rw [if_neg hvv] at hw
        exact hlen v hv w hw
    have hlen2 : lenOK c dom2 := by
      have h5 := lenOK_ac3 c (fun v => if v = var then [value] else dom v) (initialQueue c) hlen1
      rw [hac3g] at h5
      exact h5
    have h6 := ihg hlen2
    rw [hbtg2] at h6
    exact h6
  · intro var dom a hs value rest a2 hcons dom1 dom2 hac3 snd hbt ih1 ih2 hlen
    have hconsg : consistent c ((var, value) :: a) = true := hcons
    have hac3g : ac3 c (fun v => if v = var then [value] else dom v) (initialQueue c)
        = (true, dom2) := hac3
    have hbtg : backtrack c dom2 ((var, value) :: a) = (none, snd) := hbt
    rw [tryValues_cons_rec_none c var value rest dom a hs dom2 snd hconsg hac3g hbtg]
    exact ih2 hlen
  · intro var dom a hs value rest a2 hcons dom1 snd hac3 ih hlen
    have hconsg : consistent c ((var, value) :: a) = true := hcons
    have hac3g : ac3 c (fun v => if v = var then [value] else dom v) (initialQueue c)
        = (false, snd) := hac3
    rw [tryValues_cons_ac3false c var value rest dom a hs snd hconsg hac3g]
    exact ih hlen
  · intro var dom a hs value rest a2 hcons ih hlen
    have hconsg : consistent c ((var, value) :: a) = false :=
      Bool.eq_false_iff.mpr hcons
    rw [tryValues_cons_incons c var value rest dom a hs hconsg]
    exact ih hlen

theorem backtrack_none_frame (c : Crossword) (dom : Domains) (a : Assign) :
    (backtrack c dom a).1 = none → (backtrack c dom a).2 = dom := by
  refine @backtrack.induct c
    (fun dom a => (backtrack c dom a).1 = none → (backtrack c dom a).2 = dom)
    (fun var vals dom a hs =>
      (tryValues c var vals dom a hs).1 = none → (tryValues c var vals dom a hs).2 = dom)
    ?_ ?_ ?_ ?_ ?_ ?_ ?_ ?_ dom a
  · intro dom a hcomp
    rw [backtrack_complete_eq c dom a hcomp]
    intro h
    simp at h
  · intro dom a hcomp hsel
    rw [backtrack_selnone c dom a (Bool.eq_false_iff.mpr hcomp) hsel]
    intro _
    rfl
  · intro dom a hcomp var hsel ih
    rw [backtrack_selsome c dom a var (Bool.eq_false_iff.mpr hcomp) hsel]
    exact ih
  · intro var dom a hs
    rw [tryValues_nil]
    intro _
    rfl
  · intro var dom a hs value rest a2 hcons dom1 dom2 hac3 result dom3 hbt ih
    have hconsg : consistent c ((var, value) :: a) = true := hcons
    have hac3g : ac3 c (fun v => if v = var then [value] else dom v) (initialQueue c)
        = (true, dom2) := hac3
    have hbtg : backtrack c dom2 ((var, value) :: a) = (some result, dom3) := hbt
    rw [tryValues_cons_rec_some c var value rest dom a hs dom2 dom3 result hconsg hac3g hbtg]
    intro h
    simp at h
  · intro var dom a hs value rest a2 hcons dom1 dom2 hac3 snd hbt ih1 ih2
    have hconsg : consistent c ((var, value) :: a) = true := hcons
    have hac3g : ac3 c (fun v => if v = var then [value] else dom v) (initialQueue c)
        = (true, dom2) := hac3
    have hbtg : backtrack c dom2 ((var, value) :: a) = (none, snd) := hbt
    rw [tryValues_cons_rec_none c var value rest dom a hs dom2 snd hconsg hac3g hbtg]
    exact ih2
  · intro var dom a hs value rest a2 hcons dom1 snd hac3 ih
    have hconsg : consistent c ((var, value) :: a) = true := hcons
    have hac3g : ac3 c (fun v => if v = var then [value] else dom v) (initialQueue c)
        = (false, snd) := hac3
    rw [tryValues_cons_ac3false c var value rest dom a hs snd hconsg hac3g]
    exact ih
  · intro var dom a hs value rest a2 hcons ih
    have hconsg : consistent c ((var, value) :: a) = false := Bool.eq_false_iff.mpr hcons
    rw [tryValues_cons_incons c var value rest dom a hs hconsg]
    exact ih

/-- C4.  Snapshot/restore discipline of the search: when the speculative
singleton restriction for a candidate value is rejected (AC-3 fails) or the
recursive search on it fails, the loop continues with exactly the saved
pre-restriction store dom; consequently a failed search leaves every
variable's domain set-for-set equal to its value on entry. -/
theorem claim_C4 (c : Crossword) (var : Variable) (value : Word) (rest : List Word)
    (dom : Domains) (a : Assign) (h : lookupA a var = none ∧ var ∈ c.vars) :
    (consistent c ((var, value) :: a) = true →
      (∀ snd, ac3 c (fun v => if v = var then [value] else dom v) (initialQueue c) = (false, snd) →
        tryValues c var (value :: rest) dom a h = tryValues c var rest dom a h) ∧
      (∀ dom2 snd, ac3 c (fun v => if v = var then [value] else dom v) (initialQueue c)
          = (true, dom2) →
        backtrack c dom2 ((var, value) :: a) = (none, snd) →
        tryValues c var (value :: rest) dom a h = tryValues c var rest dom a h)) ∧
    ((backtrack c dom a).1 = none → ∀ v, (backtrack c dom a).2 v = dom v) := by
  constructor
  · intro hcons
    constructor
    · intro snd hac3
      exact tryValues_cons_ac3false c var value rest dom a h snd hcons hac3
    · intro dom2 snd hac3 hbt
      exact tryValues_cons_rec_none c var value rest dom a h dom2 snd hcons hac3 hbt
  · intro hnone v
    rw [backtrack_none_frame c dom a hnone]

theorem ac3Fuel_converges (c : Crossword) (dom : Domains)
    (queue : List (Variable × Variable)) :
    ∃ n, ac3Fuel c n dom queue = some (ac3 c dom queue) := by
  induction dom, queue using ac3.induct c with
  | case1 dom =>
    refine ⟨1, ?_⟩
    rw [ac3_nil]
    rfl
  | case2 dom x y rest hch hempty =>
    refine ⟨1, ?_⟩
    rw [ac3_cons_empty c dom x y rest hch hempty]
    show (if (revise c dom x y).1 = true then _ else _) = _
    rw [if_pos hch, if_pos hempty]
  | case3 dom x y rest hch hne ih =>
    obtain ⟨n, hn⟩ := ih
    refine ⟨n + 1, ?_⟩
    rw [ac3_cons_step c dom x y rest hch hne]
    show (if (revise c dom x y).1 = true then _ else _) = _
    rw [if_pos hch, if_neg hne]
    exact hn
  | case4 dom x y rest hch ih =>
    obtain ⟨n, hn⟩ := ih
    refine ⟨n + 1, ?_⟩
    rw [ac3_cons_false c dom x y rest (Bool.eq_false_iff.mpr hch)]
    show (if (revise c dom x y).1 = true then _ else _) = _
    rw [if_neg hch]
    exact hn

/-- C7.  Termination of propagation: for every crossword, every domain
store and every initial worklist, the step-indexed ac3 loop reaches the
result of ac3 in finitely many iterations — the fuel-free function ac3 is
total and the iteration converges to it, because revise only ever removes
words from finite domains. -/
theorem claim_C7 (c : Crossword) (dom : Domains) (queue : List (Variable × Variable)) :
    ∃ n, ac3Fuel c n dom queue = some (ac3 c dom queue) :=
  ac3Fuel_converges c dom queue

/-- C6.  Node-consistency invariant: after enforce_node_consistency every
word in a crossword variable's domain has that variable's length, and this
invariant is preserved by revise, by ac3, by the search engine's singleton
restriction of a variable's domain to one of its current candidates, and by
the whole backtracking search (whose failure paths restore saved snapshots
of the store); a word removed by node consistency can therefore never
reappear. -/
theorem claim_C6 (c : Crossword) :
    (∀ dom, lenOK c (enforce_node_consistency c dom)) ∧
    (∀ dom x y, lenOK c dom → lenOK c (revise c dom x y).2) ∧
    (∀ dom queue, lenOK c dom → lenOK c (ac3 c dom queue).2) ∧
    (∀ dom (var : Variable) (value : Word), value ∈ dom var → lenOK c dom →
      lenOK c (fun v => if v = var then [value] else dom v)) ∧
    (∀ dom a, lenOK c dom → lenOK c (backtrack c dom a).2) :=
  ⟨fun dom => lenOK_enforce c dom,
   fun dom x y hl => lenOK_revise c dom x y hl,
   fun dom queue hl => lenOK_ac3 c dom queue hl,
   fun dom var value hv hl => lenOK_restrict c dom var value hv hl,
   fun dom a hl => lenOK_backtrack c dom a hl⟩

/-- Arc-consistency of the ordered pair (x, y): every word of x's domain
has a supporting word in y's domain at the overlap indices. -/
def ArcOK (c : Crossword) (dom : Domains) (x y : Variable) : Prop :=
  ∀ i j, c.overlaps x y = some (i, j) → ∀ wx ∈ dom x, ∃ wy ∈ dom y, charAt wx i = charAt wy j

theorem revise_result_supported (c : Crossword) (dom : Domains) (x y : Variable) (i j : Nat)
    (hov : c.overlaps x y = some (i, j)) :
    ∀ wx ∈ (revise c dom x y).2 x, ∃ wy ∈ dom y, charAt wx i = charAt wy j := by
  intro wx hwx
  unfold revise at hwx
  rw [hov] at hwx
  by_cases hall : (dom x).all (fun vx => (dom y).any (fun vy => charAt vx i == charAt vy j))
  · simp only [hall, if_true] at hwx
    have h1 := List.all_eq_true.mp hall wx hwx
    obtain ⟨wy, hwy, heq⟩ := List.any_eq_true.mp h1
    exact ⟨wy, hwy, by simpa using heq⟩
  · simp only [hall, Bool.false_eq_true, if_false, if_pos rfl] at hwx
    have h2 : wx ∈ (dom x).filter (fun vx => (dom y).any (fun vy => charAt vx i == charAt vy j)) := by
      simpa using hwx
    have h3 := List.of_mem_filter h2
    obtain ⟨wy, hwy, heq⟩ := List.any_eq_true.mp h3
    exact ⟨wy, hwy, by simpa using heq⟩

theorem revise_keep (c : Crossword) (dom : Domains) (x y : Variable) (i j : Nat)
    (hov : c.overlaps x y = some (i, j)) (wx : Word) (hwx : wx ∈ dom x)
    (hsup : ∃ wy ∈ dom y, charAt wx i = charAt wy j) :
    wx ∈ (revise c dom x y).2 x := by
  unfold revise
  rw [hov]
  by_cases hall : (dom x).all (fun vx => (dom y).any (fun vy => charAt vx i == charAt vy j))
  · simp only [hall, if_true]
    exact hwx
  · simp only [hall, Bool.false_eq_true, if_false, if_pos rfl]
    obtain ⟨wy, hwy, heq⟩ := hsup
    have : wx ∈ (dom x).filter (fun vx => (dom y).any (fun vy => charAt vx i == charAt vy j)) :=
      List.mem_filter.mpr ⟨hwx, List.any_eq_true.mpr ⟨wy, hwy, by simpa using heq⟩⟩
    simpa using this

theorem revise_false_supported (c : Crossword) (dom : Domains) (x y : Variable) (i j : Nat)
    (hov : c.overlaps x y = some (i, j)) (hfalse : (revise c dom x y).1 = false) :
    ∀ wx ∈ dom x, ∃ wy ∈ dom y, charAt wx i = charAt wy j := by
  intro wx hwx
  unfold revise at hfalse
  rw [hov] at hfalse
  by_cases hall : (dom x).all (fun vx => (dom y).any (fun vy => charAt vx i == charAt vy j))
  · have h1 := List.all_eq_true.mp hall wx hwx
    obtain ⟨wy, hwy, heq⟩ := List.any_eq_true.mp h1
    exact ⟨wy, hwy, by simpa using heq⟩
  · simp only [hall, Bool.false_eq_true, if_false] at hfalse
    cases hfalse

theorem ac3_sound_aux (c : Crossword) (hsym : SymmOverlaps c) (dom : Domains)
    (queue : List (Variable × Variable)) :
    (∀ x y, x ∈ c.vars → y ∈ neighbors c x → (x, y) ∉ queue → ArcOK c dom x y) →
    (ac3 c dom queue).1 = true →
    ∀ x y, x ∈ c.vars → y ∈ neighbors c x → ArcOK c (ac3 c dom queue).2 x y := by
  induction dom, queue using ac3.induct c with
  | case1 dom =>
    intro hinv _ x y hx hy
    rw [ac3_nil]
    exact hinv x y hx hy (by simp)
  | case2 dom x y rest hch hempty =>
    intro hinv hsucc
    rw [ac3_cons_empty c dom x y rest hch hempty] at hsucc
    cases hsucc
  | case3 dom x y rest hch hne ih =>
    intro hinv hsucc
    rw [ac3_cons_step c dom x y rest hch hne] at hsucc ⊢
    refine ih ?_ hsucc
    intro u w hu hw hnotin i0 j0 hov0 wu hwu
    have hwune : w ≠ u := ((mem_neighbors c u w) hw).2.1
    by_cases hux1 : u = x
    · by_cases hwy2 : w = y
      · -- the popped arc itself: revise made it supported, and dom y is untouched
        rw [hux1, hwy2] at hov0
        rw [hux1] at hwu
        obtain ⟨wy2, hwy2m, heq⟩ := revise_result_supported c dom x y i0 j0 hov0 wu hwu
        refine ⟨wy2, ?_, heq⟩
        have hynex : y ≠ x := by
          rw [← hux1, ← hwy2]
          exact hwune
        rw [hwy2, revise_snd_frame c dom x y y hynex]
        exact hwy2m
      · -- an arc (x, w) with w ≠ y: x only shrank, w untouched
        have hnotq : (u, w) ∉ (x, y) :: rest := by
          intro hmem
          rcases List.mem_cons.mp hmem with h1 | h1
          · rw [Prod.mk.injEq] at h1
            exact hwy2 h1.2
          · exact hnotin (List.mem_append.mpr (Or.inl h1))
        have hold := hinv u w hu hw hnotq i0 j0 hov0
        have hwu2 : wu ∈ dom u := revise_sub c dom x y u wu hwu
        obtain ⟨wy, hwy, heq⟩ := hold wu hwu2
        refine ⟨wy, ?_, heq⟩
        have hwnex : w ≠ x := by
          rw [← hux1]
          exact hwune
        rw [revise_snd_frame c dom x y w hwnex]
        exact hwy
    · by_cases hwx2 : w = x
      · by_cases huy : u = y
        · -- the arc (y, x): a surviving support of wu in dom x keeps its own
          -- support wu in dom y, so the revision cannot have removed it
          have hyx_rest : (u, w) ∉ rest := fun hmem =>
            hnotin (List.mem_append.mpr (Or.inl hmem))
          have hqueue : (u, w) ∉ (x, y) :: rest := by
            intro hmem
            rcases List.mem_cons.mp hmem with h1 | h1
            · rw [Prod.mk.injEq] at h1
              exact hux1 h1.1
            · exact hyx_rest h1
          have hold := hinv u w hu hw hqueue i0 j0 hov0
          have hframeu : (revise c dom x y).2 u = dom u := revise_snd_frame c dom x y u hux1
          rw [hframeu] at hwu
          obtain ⟨wx2, hwx2m, heq2⟩ := hold wu hwu
          have hovwu : c.overlaps w u = some (j0, i0) := hsym u w i0 j0 hov0
          have hovxy : c.overlaps x y = some (j0, i0) := by
            rw [← hwx2, ← huy]
            exact hovwu
          have hwx2x : wx2 ∈ dom x := by
            rw [← hwx2]
            exact hwx2m
          have hwuy : wu ∈ dom y := by
            rw [← huy]
            exact hwu
          have hkeep : wx2 ∈ (revise c dom x y).2 x :=
            revise_keep c dom x y j0 i0 hovxy wx2 hwx2x ⟨wu, hwuy, heq2.symm⟩
          refine ⟨wx2, ?_, heq2⟩
          rw [hwx2]
          exact hkeep
        · -- an arc (u, x) with u ≠ y: it was re-enqueued, so nothing to show
          exfalso
          apply hnotin
          apply List.mem_append.mpr
          refine Or.inr (List.mem_map.mpr ⟨u, ?_, ?_⟩)
          · apply List.mem_filter.mpr
            constructor
            · have hovux : c.overlaps u x = some (i0, j0) := by
                rw [← hwx2]
                exact hov0
              have hovxu : c.overlaps x u = some (j0, i0) := hsym u x i0 j0 hovux
              unfold neighbors
              apply List.mem_filter.mpr
              refine ⟨hu, ?_⟩
              simp [bne_iff_ne, hux1, hovxu]
            · simpa using huy
          · simp [hwx2]
      · -- an arc not mentioning x on its support side
        have hnotq : (u, w) ∉ (x, y) :: rest := by
          intro hmem
          rcases List.mem_cons.mp hmem with h1 | h1
          · rw [Prod.mk.injEq] at h1
            exact hux1 h1.1
          · exact hnotin (List.mem_append.mpr (Or.inl h1))
        have hold := hinv u w hu hw hnotq i0 j0 hov0
        have hwu2 : wu ∈ dom u := revise_sub c dom x y u wu hwu
        obtain ⟨wy, hwy, heq⟩ := hold wu hwu2
        refine ⟨wy, ?_, heq⟩
        rw [revise_snd_frame c dom x y w hwx2]
        exact hwy
  | case4 dom x y rest hch ih =>
    intro hinv hsucc
    have hfalse : (revise c dom x y).1 = false := Bool.eq_false_iff.mpr hch
    rw [ac3_cons_false c dom x y rest hfalse] at hsucc ⊢
    refine ih ?_ hsucc
    intro u w hu hw hnotin i0 j0 hov0 wu hwu
    by_cases hux : (u, w) = (x, y)
    · rw [Prod.mk.injEq] at hux
      obtain ⟨hux1, hux2⟩ := hux
      subst hux1
      subst hux2
      exact revise_false_supported c dom u w i0 j0 hov0 hfalse wu hwu
    · have hnotq : (u, w) ∉ (x, y) :: rest := by
        intro hmem
        rcases List.mem_cons.mp hmem with h1 | h1
        · exact hux h1
        · exact hnotin h1
      exact hinv u w hu hw hnotq i0 j0 hov0 wu hwu

/-- C3.  Arc-consistency soundness: if the global AC-3 pass (worklist = all
ordered neighbor arcs) succeeds on an index-consistent puzzle, then in the
resulting store every word of any variable's domain has a supporting word
in each neighbor's domain at the overlap indices. -/
theorem claim_C3 (c : Crossword) (hsym : SymmOverlaps c) (dom dom' : Domains)
    (hsucc : ac3 c dom (initialQueue c) = (true, dom')) :
    ∀ x y i j, x ∈ c.vars → y ∈ neighbors c x → c.overlaps x y = some (i, j) →
      ∀ wx ∈ dom' x, ∃ wy ∈ dom' y, charAt wx i = charAt wy j := by
  have hinv : ∀ x y, x ∈ c.vars → y ∈ neighbors c x →
      (x, y) ∉ initialQueue c → ArcOK c dom x y := by
    intro x y hx hy hnot
    exfalso
    apply hnot
    unfold initialQueue
    apply List.mem_flatMap.mpr
    exact ⟨x, hx, List.mem_map.mpr ⟨y, hy, rfl⟩⟩
  have h1 : (ac3 c dom (initialQueue c)).1 = true := by rw [hsucc]
  have h2 := ac3_sound_aux c hsym dom (initialQueue c) hinv h1
  have h3 : (ac3 c dom (initialQueue c)).2 = dom' := by rw [hsucc]
  rw [h3] at h2
  intro x y i j hx hy hov wx hwx
  exact h2 x y hx hy i j hov wx hwx

theorem cwTwo_symm : SymmOverlaps cwTwo := by
  intro x y i j h
  have h2 : ovSym x y = some (i, j) := h
  unfold ovSym at h2
  split_ifs at h2 with h1
  · simp only [Option.some.injEq, Prod.mk.injEq] at h2
    obtain ⟨hi, hj⟩ := h2
    subst hi
    subst hj
    simp only [Bool.or_eq_true, Bool.and_eq_true, decide_eq_true_eq] at h1
    show ovSym y x = some (0, 0)
    unfold ovSym
    rcases h1 with ⟨hx1, hy1⟩ | ⟨hx1, hy1⟩
    · subst hx1
      subst hy1
      decide
    · subst hx1
      subst hy1
      decide

theorem claim_C3_witness :
    ∃ wy ∈ (initialDomains cwTwo) vD3, charAt wCAT 0 = charAt wy 0 := by
  have hq : initialQueue cwTwo = [(vA3, vD3), (vD3, vA3)] := by decide
  have e1 : ac3 cwTwo (initialDomains cwTwo) [(vA3, vD3), (vD3, vA3)]
      = ac3 cwTwo (initialDomains cwTwo) [(vD3, vA3)] :=
    ac3_cons_false cwTwo (initialDomains cwTwo) vA3 vD3 [(vD3, vA3)] (by decide)
  have e2 : ac3 cwTwo (initialDomains cwTwo) [(vD3, vA3)]
      = ac3 cwTwo (initialDomains cwTwo) [] :=
    ac3_cons_false cwTwo (initialDomains cwTwo) vD3 vA3 [] (by decide)
  have e3 : ac3 cwTwo (initialDomains cwTwo) [] = (true, initialDomains cwTwo) :=
    ac3_nil cwTwo (initialDomains cwTwo)
  have hsucc : ac3 cwTwo (initialDomains cwTwo) (initialQueue cwTwo)
      = (true, initialDomains cwTwo) := by
    rw [hq, e1, e2, e3]
  exact claim_C3 cwTwo cwTwo_symm (initialDomains cwTwo) (initialDomains cwTwo) hsucc
    vA3 vD3 0 0 (by decide) (by decide) (by decide) wCAT (by decide)

theorem select_min_spec (c : Crossword) (dom : Domains) (a : Assign) (r : Variable)
    (hsel : select_unassigned_variable c dom a = some r) :
    ∀ w ∈ c.vars, lookupA a w = none → (dom r).length ≤ (dom w).length ∧
      ((dom w).length = (dom r).length → (neighbors c w).length ≤ (neighbors c r).length) := by
  unfold select_unassigned_variable at hsel
  cases hf : c.vars.filter (fun v => (lookupA a v).isNone) with
  | nil =>
    rw [hf] at hsel
    cases hsel
  | cons u rest =>
    rw [hf] at hsel
    have hr := Option.some.inj hsel
    intro w hwv hwn
    have hwmem : w ∈ u :: rest := by
      rw [← hf]
      exact List.mem_filter.mpr ⟨hwv, by simp [hwn]⟩
    have hmin := foldl_pick_min c dom rest u w hwmem
    rw [hr] at hmin
    rw [betterKey_false_iff] at hmin
    exact ⟨hmin.1, fun he => hmin.2 he⟩

theorem backtrack_empty_none (c : Crossword) (dom : Domains) (x : Variable)
    (hx : x ∈ c.vars) (hempty : dom x = []) :
    (backtrack c dom []).1 = none := by
  have hcomp : assignment_complete c [] = false := by
    apply Bool.eq_false_iff.mpr
    intro hc
    unfold assignment_complete at hc
    rw [Bool.and_eq_true] at hc
    have := List.all_eq_true.mp hc.1 x hx
    simp [lookupA] at this
  have hfe : c.vars.filter (fun v => (lookupA ([] : Assign) v).isNone) = c.vars := by
    apply List.filter_eq_self.mpr
    intro v _
    simp [lookupA]
  cases hsel : select_unassigned_variable c dom [] with
  | none =>
    exfalso
    unfold select_unassigned_variable at hsel
    rw [hfe] at hsel
    cases hcv : c.vars with
    | nil =>
      rw [hcv] at hx
      cases hx
    | cons u rest =>
      rw [hcv] at hsel
      cases hsel
  | some r =>
    rw [backtrack_selsome c dom [] r hcomp hsel]
    have hmin := select_min_spec c dom [] r hsel x hx (by simp [lookupA])
    have h0 : (dom r).length = 0 := by
      have := hmin.1
      rw [hempty] at this
      simpa using this
    have hrempty : dom r = [] := List.length_eq_zero.mp h0
    have hord : order_domain_values c dom r [] = [] := by
      unfold order_domain_values
      rw [hrempty]
      simp
    rw [hord, tryValues_nil]

theorem initialQueue_firsts (c : Crossword) : ∀ p ∈ initialQueue c, p.1 ∈ c.vars := by
  intro p hp
  unfold initialQueue at hp
  obtain ⟨x, hx, hmem⟩ := List.mem_flatMap.mp hp
  obtain ⟨y, hy, hyp⟩ := List.mem_map.mp hmem
  rw [← hyp]
  exact hx

theorem ac3_false_empty (c : Crossword) (dom : Domains) (queue : List (Variable × Variable)) :
    (∀ p ∈ queue, p.1 ∈ c.vars) → (ac3 c dom queue).1 = false →
    ∃ x ∈ c.vars, (ac3 c dom queue).2 x = [] := by
  induction dom, queue using ac3.induct c with
  | case1 dom =>
    intro _ hfail
    rw [ac3_nil] at hfail
    cases hfail
  | case2 dom x y rest hch hempty =>
    intro hq _
    rw [ac3_cons_empty c dom x y rest hch hempty]
    refine ⟨x, hq (x, y) (List.mem_cons_self _ _), ?_⟩
    exact List.length_eq_zero.mp hempty
  | case3 dom x y rest hch hne ih =>
    intro hq hfail
    rw [ac3_cons_step c dom x y rest hch hne] at hfail ⊢
    refine ih ?_ hfail
    intro p hp
    rcases List.mem_append.mp hp with h1 | h1
    · exact hq p (List.mem_cons_of_mem _ h1)
    · obtain ⟨z, hz, hzp⟩ := List.mem_map.mp h1
      have hzv := (mem_neighbors c x z (List.mem_of_mem_filter hz)).1
      rw [← hzp]
      exact hzv
  | case4 dom x y rest hch ih =>
    intro hq hfail
    rw [ac3_cons_false c dom x y rest (Bool.eq_false_iff.mpr hch)] at hfail ⊢
    refine ih ?_ hfail
    intro p hp
    exact hq p (List.mem_cons_of_mem _ hp)

/-- C5.  Orchestrator short-circuit behavior: solve runs node consistency,
then the global AC-3 pass, then the search; when that AC-3 pass fails (a
domain emptied), the search run on the resulting store produces no
assignment and solve returns the no-solution signal none. -/
theorem claim_C5 (c : Crossword)
    (hfail : (ac3 c (enforce_node_consistency c (initialDomains c)) (initialQueue c)).1
      = false) :
    (backtrack c
        ((ac3 c (enforce_node_consistency c (initialDomains c)) (initialQueue c)).2) []).1
      = none ∧
    solve c = none := by
  obtain ⟨x, hx, hempty⟩ :=
    ac3_false_empty c (enforce_node_consistency c (initialDomains c)) (initialQueue c)
      (initialQueue_firsts c) hfail
  refine ⟨?_, ?_⟩
  · exact backtrack_empty_none c _ x hx hempty
  · exact backtrack_empty_none c _ x hx hempty

theorem claim_C5_witness : solve cwFail = none := by
  have hq : initialQueue cwFail = [(vA3, vB1), (vB1, vA3)] := by decide
  have e1 : ac3 cwFail (enforce_node_consistency cwFail (initialDomains cwFail))
      [(vA3, vB1), (vB1, vA3)]
      = (false,
          (revise cwFail (enforce_node_consistency cwFail (initialDomains cwFail)) vA3 vB1).2) :=
    ac3_cons_empty cwFail (enforce_node_consistency cwFail (initialDomains cwFail)) vA3 vB1
      [(vB1, vA3)] (by decide) (by decide)
  have hfail : (ac3 cwFail (enforce_node_consistency cwFail (initialDomains cwFail))
      (initialQueue cwFail)).1 = false := by
    rw [hq, e1]
  exact (claim_C5 cwFail hfail).2

theorem lookupA_some_mem (a : Assign) (v : Variable) (w : Word)
    (h : lookupA a v = some w) : (v, w) ∈ a := by
  induction a with
  | nil => cases h
  | cons p rest ih =>
    cases p with
    | mk u wu =>
      unfold lookupA at h
      by_cases huv : u = v
      · rw [if_pos huv] at h
        have hw := Option.some.inj h
        rw [← huv, ← hw]
        exact List.mem_cons_self _ _
      · rw [if_neg huv] at h
        exact List.mem_cons_of_mem _ (ih h)

theorem lookupA_none_not_mem (a : Assign) (v : Variable)
    (h : lookupA a v = none) : v ∉ a.map Prod.fst := by
  induction a with
  | nil => simp
  | cons p rest ih =>
    cases p with
    | mk u wu =>
      unfold lookupA at h
      by_cases huv : u = v
      · rw [if_pos huv] at h
        cases h
      · rw [if_neg huv] at h
        simp only [List.map_cons, List.mem_cons]
        intro hc
        rcases hc with h1 | h1
        · exact huv h1.symm
        · exact ih h h1

theorem lookupA_isSome_of_mem_keys (a : Assign) (v : Variable)
    (h : v ∈ a.map Prod.fst) : ∃ w, lookupA a v = some w := by
  cases hl : lookupA a v with
  | none => exact absurd h (lookupA_none_not_mem a v hl)
  | some w => exact ⟨w, rfl⟩

theorem mem_keys_of_lookupA_some (a : Assign) (v : Variable) (w : Word)
    (h : lookupA a v = some w) : v ∈ a.map Prod.fst := by
  have := lookupA_some_mem a v w h
  exact List.mem_map.mpr ⟨(v, w), this, rfl⟩

theorem nodup_iff_dedup_len {α : Type} [DecidableEq α] (l : List α) :
    (l.dedup.length == l.length) = true ↔ l.Nodup := by
  rw [beq_iff_eq]
  constructor
  · intro h
    have hsub : l.dedup.Sublist l := List.dedup_sublist l
    have : l.dedup = l := hsub.eq_of_length h
    rw [← this]
    exact List.nodup_dedup l
  · intro h
    rw [List.dedup_eq_self.mpr h]

theorem consistent_nil (c : Crossword) : consistent c [] = true := rfl

theorem select_none_filter (c : Crossword) (dom : Domains) (a : Assign)
    (h : select_unassigned_variable c dom a = none) :
    c.vars.filter (fun v => (lookupA a v).isNone) = [] := by
  unfold select_unassigned_variable at h
  cases hf : c.vars.filter (fun v => (lookupA a v).isNone) with
  | nil => rfl
  | cons u rest =>
    rw [hf] at h
    cases h

/-- A complete valid solution in the sense of the spec: one dictionary word
per crossword variable, pairwise distinct words, correct lengths, and
matching characters at every overlap between distinct assigned slots. -/
def completeValid (c : Crossword) (A : Assign) : Prop :=
  (A.map Prod.fst).Nodup ∧
  (∀ v, v ∈ A.map Prod.fst ↔ v ∈ c.vars) ∧
  (∀ p ∈ A, (p.2 : Word) ∈ c.words) ∧
  (A.map Prod.snd).Nodup ∧
  (∀ p ∈ A, (p.2 : Word).length = p.1.length) ∧
  (∀ x y wx wy i j, lookupA A x = some wx → lookupA A y = some wy → x ≠ y →
    c.overlaps x y = some (i, j) → charAt wx i = charAt wy j)

/-- The candidate solution A is still available in the domain store: each
crossword variable's assigned word is in its current domain. -/
def Supports (c : Crossword) (A : Assign) (dom : Domains) : Prop :=
  ∀ v ∈ c.vars, ∀ w, lookupA A v = some w → w ∈ dom v

/-- Invariant of assignments built by the search: they pass the consistent
check, have no duplicate keys, and only assign crossword variables. -/
def GoodAssign (c : Crossword) (a : Assign) : Prop :=
  consistent c a = true ∧ (a.map Prod.fst).Nodup ∧ ∀ p ∈ a, p.1 ∈ c.vars

/-- The partial assignment a agrees with the total candidate A. -/
def SubAssign (a A : Assign) : Prop :=
  ∀ p ∈ a, lookupA A p.1 = some p.2

theorem completeValid_lookup (c : Crossword) (A : Assign) (hA : completeValid c A)
    (v : Variable) (hv : v ∈ c.vars) : ∃ w, lookupA A v = some w :=
  lookupA_isSome_of_mem_keys A v ((hA.2.1 v).mpr hv)

theorem consistent_values_nodup (c : Crossword) (a : Assign)
    (h : consistent c a = true) : (a.map Prod.snd).Nodup := by
  unfold consistent at h
  rw [Bool.and_eq_true] at h
  exact (nodup_iff_dedup_len (a.map (fun p => p.2))).mp h.1

theorem consistent_lengths (c : Crossword) (a : Assign)
    (h : consistent c a = true) : ∀ p ∈ a, (p.2 : Word).length = p.1.length := by
  intro p hp
  unfold consistent at h
  rw [Bool.and_eq_true] at h
  have h2 := List.all_eq_true.mp h.2 p hp
  rw [Bool.and_eq_true] at h2
  simpa using h2.1

theorem consistent_overlaps (c : Crossword) (a : Assign)
    (h : consistent c a = true) :
    ∀ x y wx wy i j, lookupA a x = some wx → lookupA a y = some wy →
      y ∈ neighbors c x → c.overlaps x y = some (i, j) → charAt wx i = charAt wy j := by
  intro x y wx wy i j hx hy hnb hov
  unfold consistent at h
  rw [Bool.and_eq_true] at h
  have hmem := lookupA_some_mem a x wx hx
  have h2 := List.all_eq_true.mp h.2 (x, wx) hmem
  rw [Bool.and_eq_true] at h2
  have h3 := List.all_eq_true.mp h2.2 y hnb
  rw [hy, hov] at h3
  simpa using h3

theorem consistent_of_sub (c : Crossword) (A a : Assign) (hA : completeValid c A)
    (hsub : SubAssign a A) (hnd : (a.map Prod.fst).Nodup) : consistent c a = true := by
  unfold consistent
  rw [Bool.and_eq_true]
  constructor
  · apply (nodup_iff_dedup_len _).mpr
    have hand : a.Nodup := hnd.of_map
    apply List.Nodup.map_on ?_ hand
    intro p hp q hq heq
    have hpA := hsub p hp
    have hqA := hsub q hq
    have hpmem := lookupA_some_mem A p.1 p.2 hpA
    have hqmem := lookupA_some_mem A q.1 q.2 hqA
    have hinj := List.inj_on_of_nodup_map hA.2.2.2.1 hpmem hqmem (by simpa using heq)
    exact hinj
  · apply List.all_eq_true.mpr
    intro p hp
    rw [Bool.and_eq_true]
    constructor
    · have hpA := hsub p hp
      have hpmem := lookupA_some_mem A p.1 p.2 hpA
      have := hA.2.2.2.2.1 (p.1, p.2) hpmem
      simpa using this
    · apply List.all_eq_true.mpr
      intro nb hnb
      cases hlnb : lookupA a nb with
      | none => rfl
      | some nbw =>
        cases hov : c.overlaps p.1 nb with
        | none => rfl
        | some q =>
          cases q with
          | mk i j =>
            have hpA := hsub p hp
            have hnbA : lookupA A nb = some nbw :=
              hsub (nb, nbw) (lookupA_some_mem a nb nbw hlnb)
            have hne : p.1 ≠ nb := Ne.symm ((mem_neighbors c p.1 nb hnb).2.1)
            have := hA.2.2.2.2.2 p.1 nb p.2 nbw i j hpA hnbA hne hov
            simpa using this

theorem goodAssign_extend (c : Crossword) (a : Assign) (var : Variable) (value : Word)
    (hg : GoodAssign c a) (hvar : var ∈ c.vars) (hnone : lookupA a var = none)
    (hcons : consistent c ((var, value) :: a) = true) :
    GoodAssign c ((var, value) :: a) := by
  refine ⟨hcons, ?_, ?_⟩
  · simp only [List.map_cons, List.nodup_cons]
    exact ⟨lookupA_none_not_mem a var hnone, hg.2.1⟩
  · intro p hp
    rcases List.mem_cons.mp hp with h1 | h1
    · rw [h1]
      exact hvar
    · exact hg.2.2 p h1

theorem backtrack_some_good (c : Crossword) (dom : Domains) (a : Assign) :
    ∀ r, GoodAssign c a → (backtrack c dom a).1 = some r →
      GoodAssign c r ∧ assignment_complete c r = true := by
  refine @backtrack.induct c
    (fun dom a => ∀ r, GoodAssign c a → (backtrack c dom a).1 = some r →
      GoodAssign c r ∧ assignment_complete c r = true)
    (fun var vals dom a hs => ∀ r, GoodAssign c a → (tryValues c var vals dom a hs).1 = some r →
      GoodAssign c r ∧ assignment_complete c r = true)
    ?_ ?_ ?_ ?_ ?_ ?_ ?_ ?_ dom a
  · intro dom a hcomp r hg hr
    rw [backtrack_complete_eq c dom a hcomp] at hr
    have : a = r := Option.some.inj hr
    rw [← this]
    exact ⟨hg, hcomp⟩
  · intro dom a hcomp hsel r hg hr
    rw [backtrack_selnone c dom a (Bool.eq_false_iff.mpr hcomp) hsel] at hr
    cases hr
  · intro dom a hcomp var hsel ih r hg hr
    rw [backtrack_selsome c dom a var (Bool.eq_false_iff.mpr hcomp) hsel] at hr
    exact ih r hg hr
  · intro var dom a hs r hg hr
    rw [tryValues_nil] at hr
    cases hr
  · intro var dom a hs value rest a2 hcons dom1 dom2 hac3 result dom3 hbt ih r hg hr
    have hconsg : consistent c ((var, value) :: a) = true := hcons
    have hac3g : ac3 c (fun v => if v = var then [value] else dom v) (initialQueue c)
        = (true, dom2) := hac3
    have hbtg : backtrack c dom2 ((var, value) :: a) = (some result, dom3) := hbt
    rw [tryValues_cons_rec_some c var value rest dom a hs dom2 dom3 result hconsg hac3g hbtg]
      at hr
    have hres : result = r := Option.some.inj hr
    have hg2 : GoodAssign c ((var, value) :: a) :=
      goodAssign_extend c a var value hg hs.2 hs.1 hconsg
    have := ih r hg2 (by rw [hbtg, ← hres])
    exact this
  · intro var dom a hs value rest a2 hcons dom1 dom2 hac3 snd hbt ih1 ih2 r hg hr
    have hconsg : consistent c ((var, value) :: a) = true := hcons
    have hac3g : ac3 c (fun v => if v = var then [value] else dom v) (initialQueue c)
        = (true, dom2) := hac3
    have hbtg : backtrack c dom2 ((var, value) :: a) = (none, snd) := hbt
    rw [tryValues_cons_rec_none c var value rest dom a hs dom2 snd hconsg hac3g hbtg] at hr
    exact ih2 r hg hr
  · intro var dom a hs value rest a2 hcons dom1 snd hac3 ih r hg hr
    have hconsg : consistent c ((var, value) :: a) = true := hcons
    have hac3g : ac3 c (fun v => if v = var then [value] else dom v) (initialQueue c)
        = (false, snd) := hac3
    rw [tryValues_cons_ac3false c var value rest dom a hs snd hconsg hac3g] at hr
    exact ih r hg hr
  · intro var dom a hs value rest a2 hcons ih r hg hr
    have hconsg : consistent c ((var, value) :: a) = false := Bool.eq_false_iff.mpr hcons
    rw [tryValues_cons_incons c var value rest dom a hs hconsg] at hr
    exact ih r hg hr

/-- C1.  Solution validity: solve returns none or a complete assignment —
exactly one entry per crossword variable — whose words are pairwise
distinct, have their slots' lengths, and agree at every overlap between
neighboring slots. -/
theorem claim_C1 (c : Crossword) (a : Assign) (hsolve : solve c = some a) :
    ((a.map Prod.fst).Nodup ∧ (∀ v, v ∈ a.map Prod.fst ↔ v ∈ c.vars)) ∧
    (a.map Prod.snd).Nodup ∧
    (∀ p ∈ a, (p.2 : Word).length = p.1.length) ∧
    (∀ x y wx wy i j, lookupA a x = some wx → lookupA a y = some wy →
      y ∈ neighbors c x → c.overlaps x y = some (i, j) → charAt wx i = charAt wy j) := by
  have h1 : (backtrack c
      ((ac3 c (enforce_node_consistency c (initialDomains c)) (initialQueue c)).2) []).1
      = some a := hsolve
  have hg0 : GoodAssign c [] := ⟨consistent_nil c, by simp, by simp⟩
  obtain ⟨hg, hcomp⟩ := backtrack_some_good c _ [] a hg0 h1
  refine ⟨⟨hg.2.1, ?_⟩, consistent_values_nodup c a hg.1, consistent_lengths c a hg.1,
    consistent_overlaps c a hg.1⟩
  intro v
  unfold assignment_complete at hcomp
  rw [Bool.and_eq_true] at hcomp
  constructor
  · intro hv
    obtain ⟨p, hp, hpv⟩ := List.mem_map.mp hv
    have := List.all_eq_true.mp hcomp.2 p hp
    rw [← hpv]
    simpa using this
  · intro hv
    have h2 := List.all_eq_true.mp hcomp.1 v hv
    rw [Option.isSome_iff_exists] at h2
    obtain ⟨w, hw⟩ := h2
    exact mem_keys_of_lookupA_some a v w hw

theorem claim_C1_witness :
    (([((vA3 : Variable), wCAT)] : Assign).map Prod.snd).Nodup ∧
    (∀ v, v ∈ (([((vA3 : Variable), wCAT)] : Assign).map Prod.fst) ↔ v ∈ cwOne.vars) := by
  have hq : initialQueue cwOne = [] := rfl
  have hbtin : backtrack cwOne
      (fun v => if v = vA3 then [wCAT] else enforce_node_consistency cwOne (initialDomains cwOne) v)
      [(vA3, wCAT)]
      = (some [(vA3, wCAT)],
         fun v => if v = vA3 then [wCAT] else enforce_node_consistency cwOne (initialDomains cwOne) v) :=
    backtrack_complete_eq cwOne _ _ (by decide)
  have hac3in : ac3 cwOne
      (fun v => if v = vA3 then [wCAT] else enforce_node_consistency cwOne (initialDomains cwOne) v)
      (initialQueue cwOne)
      = (true,
         fun v => if v = vA3 then [wCAT] else enforce_node_consistency cwOne (initialDomains cwOne) v) := by
    rw [hq]
    exact ac3_nil cwOne _
  have hord : order_domain_values cwOne (enforce_node_consistency cwOne (initialDomains cwOne))
      vA3 [] = [wCAT] := by
    unfold order_domain_values
    have hd : enforce_node_consistency cwOne (initialDomains cwOne) vA3 = [wCAT] := by decide
    rw [hd]
    simp
  have hsolve : solve cwOne = some [(vA3, wCAT)] := by
    show (backtrack cwOne
        (ac3 cwOne (enforce_node_consistency cwOne (initialDomains cwOne)) (initialQueue cwOne)).2
        []).1 = some [(vA3, wCAT)]
    rw [hq, ac3_nil]
    rw [backtrack_selsome cwOne (enforce_node_consistency cwOne (initialDomains cwOne)) [] vA3
      (by decide) (by decide)]
    rw [hord]
    rw [tryValues_cons_rec_some cwOne vA3 wCAT []
      (enforce_node_consistency cwOne (initialDomains cwOne)) [] _ _ _ [(vA3, wCAT)]
      (by decide) hac3in hbtin]
  exact ⟨(claim_C1 cwOne [(vA3, wCAT)] hsolve).2.1, (claim_C1 cwOne [(vA3, wCAT)] hsolve).1.2⟩

theorem supports_initial (c : Crossword) (A : Assign) (hA : completeValid c A) :
    Supports c A (initialDomains c) := by
  intro v hv w hw
  have hmem := lookupA_some_mem A v w hw
  have hword := hA.2.2.1 (v, w) hmem
  unfold initialDomains
  exact List.mem_dedup.mpr hword

theorem supports_enforce (c : Crossword) (A : Assign) (dom : Domains)
    (hA : completeValid c A) (hsup : Supports c A dom) :
    Supports c A (enforce_node_consistency c dom) := by
  intro v hv w hw
  unfold enforce_node_consistency
  rw [if_pos hv]
  apply List.mem_filter.mpr
  refine ⟨hsup v hv w hw, ?_⟩
  have hmem := lookupA_some_mem A v w hw
  have hlen := hA.2.2.2.2.1 (v, w) hmem
  simpa using hlen

theorem supports_revise (c : Crossword) (A : Assign) (dom : Domains) (x y : Variable)
    (hA : completeValid c A) (hsup : Supports c A dom)
    (hy : y ∈ c.vars) (hxy : x ≠ y) : Supports c A (revise c dom x y).2 := by
  intro v hv w hw
  by_cases hvx : v = x
  · cases hov : c.overlaps x y with
    | none =>
      have : revise c dom x y = (false, dom) := by
        unfold revise
        rw [hov]
      rw [this]
      exact hsup v hv w hw
    | some q =>
      cases q with
      | mk i j =>
        obtain ⟨wy, hwy⟩ := completeValid_lookup c A hA y hy
        have hwyd : wy ∈ dom y := hsup y hy wy hwy
        have hwx : lookupA A x = some w := by
          rw [← hvx]
          exact hw
        have hwd : w ∈ dom x := by
          have h5 := hsup v hv w hw
          rw [hvx] at h5
          exact h5
        have hchar : charAt w i = charAt wy j :=
          hA.2.2.2.2.2 x y w wy i j hwx hwy hxy hov
        rw [hvx]
        exact revise_keep c dom x y i j hov w hwd ⟨wy, hwyd, hchar⟩
  · rw [revise_snd_frame c dom x y v hvx]
    exact hsup v hv w hw

/-- Well-formed worklist entries: both components are crossword variables
and the two are distinct (every worklist reachable from solve is such). -/
def QueueOK (c : Crossword) (queue : List (Variable × Variable)) : Prop :=
  ∀ p ∈ queue, p.1 ∈ c.vars ∧ p.2 ∈ c.vars ∧ p.1 ≠ p.2

theorem initialQueue_ok (c : Crossword) : QueueOK c (initialQueue c) := by
  intro p hp
  unfold initialQueue at hp
  obtain ⟨x, hx, hmem⟩ := List.mem_flatMap.mp hp
  obtain ⟨y, hy, hyp⟩ := List.mem_map.mp hmem
  have hn := mem_neighbors c x y hy
  rw [← hyp]
  exact ⟨hx, hn.1, Ne.symm hn.2.1⟩

theorem ac3_supports (c : Crossword) (A : Assign) (dom : Domains)
    (queue : List (Variable × Variable)) (hA : completeValid c A) :
    QueueOK c queue → Supports c A dom →
    (ac3 c dom queue).1 = true ∧ Supports c A (ac3 c dom queue).2 := by
  induction dom, queue using ac3.induct c with
  | case1 dom =>
    intro _ hsup
    rw [ac3_nil]
    exact ⟨rfl, hsup⟩
  | case2 dom x y rest hch hempty =>
    intro hq hsup
    exfalso
    have hxy := hq (x, y) (List.mem_cons_self _ _)
    have hsup2 := supports_revise c A dom x y hA hsup hxy.2.1 hxy.2.2
    obtain ⟨wx, hwx⟩ := completeValid_lookup c A hA x hxy.1
    have hmem := hsup2 x hxy.1 wx hwx
    rw [List.length_eq_zero.mp hempty] at hmem
    cases hmem
  | case3 dom x y rest hch hne ih =>
    intro hq hsup
    rw [ac3_cons_step c dom x y rest hch hne]
    have hxy := hq (x, y) (List.mem_cons_self _ _)
    refine ih ?_ (supports_revise c A dom x y hA hsup hxy.2.1 hxy.2.2)
    intro p hp
    rcases List.mem_append.mp hp with h1 | h1
    · exact hq p (List.mem_cons_of_mem _ h1)
    · obtain ⟨z, hz, hzp⟩ := List.mem_map.mp h1
      have hzn := mem_neighbors c x z (List.mem_of_mem_filter hz)
      rw [← hzp]
      exact ⟨hzn.1, hxy.1, hzn.2.1⟩
  | case4 dom x y rest hch ih =>
    intro hq hsup
    rw [ac3_cons_false c dom x y rest (Bool.eq_false_iff.mpr hch)]
    refine ih ?_ hsup
    intro p hp
    exact hq p (List.mem_cons_of_mem _ hp)

theorem supports_restrict (c : Crossword) (A : Assign) (dom : Domains)
    (var : Variable) (value : Word) (hsup : Supports c A dom)
    (hval : lookupA A var = some value) :
    Supports c A (fun v => if v = var then [value] else dom v) := by
  intro v hv w hw
  simp only []
  by_cases hvv : v = var
  · rw [if_pos hvv]
    rw [hvv] at hw
    rw [hval] at hw
    have := Option.some.inj hw
    simp [this]
  · rw [if_neg hvv]
    exact hsup v hv w hw

theorem order_mem (c : Crossword) (dom : Domains) (var : Variable) (a : Assign)
    (w : Word) (hw : w ∈ dom var) : w ∈ order_domain_values c dom var a := by
  unfold order_domain_values
  exact (List.mergeSort_perm (dom var) _).mem_iff.mpr hw

theorem backtrack_complete_some (c : Crossword) (dom : Domains) (a : Assign) :
    ∀ A, completeValid c A → Supports c A dom → GoodAssign c a → SubAssign a A →
      (backtrack c dom a).1.isSome := by
  refine @backtrack.induct c
    (fun dom a => ∀ A, completeValid c A → Supports c A dom → GoodAssign c a → SubAssign a A →
      (backtrack c dom a).1.isSome)
    (fun var vals dom a hs => ∀ A wA, completeValid c A → Supports c A dom → GoodAssign c a →
      SubAssign a A → lookupA A var = some wA → wA ∈ vals →
      (tryValues c var vals dom a hs).1.isSome)
    ?_ ?_ ?_ ?_ ?_ ?_ ?_ ?_ dom a
  · intro dom a hcomp A hA hsup hg hsub
    rw [backtrack_complete_eq c dom a hcomp]
    simp
  · intro dom a hcomp hsel A hA hsup hg hsub
    exfalso
    apply hcomp
    have hfe := select_none_filter c dom a hsel
    unfold assignment_complete
    rw [Bool.and_eq_true]
    constructor
    · apply List.all_eq_true.mpr
      intro v hv
      by_cases hvn : (lookupA a v).isNone
      · exfalso
        have hvm : v ∈ c.vars.filter (fun v => (lookupA a v).isNone) :=
          List.mem_filter.mpr ⟨hv, hvn⟩
        rw [hfe] at hvm
        cases hvm
      · cases hl : lookupA a v with
        | none =>
          exfalso
          apply hvn
          rw [hl]
          rfl
        | some w => rfl
    · apply List.all_eq_true.mpr
      intro p hp
      exact decide_eq_true (hg.2.2 p hp)
  · intro dom a hcomp var hsel ih A hA hsup hg hsub
    rw [backtrack_selsome c dom a var (Bool.eq_false_iff.mpr hcomp) hsel]
    have hspec := select_unassigned_spec c dom a var hsel
    obtain ⟨wA, hwA⟩ := completeValid_lookup c A hA var hspec.2
    have hdom : wA ∈ dom var := hsup var hspec.2 wA hwA
    exact ih A wA hA hsup hg hsub hwA (order_mem c dom var a wA hdom)
  · intro var dom a hs A wA hA hsup hg hsub hwA hmem
    cases hmem
  · intro var dom a hs value rest a2 hcons dom1 dom2 hac3 result dom3 hbt ih A wA hA hsup hg
      hsub hwA hmem
    have hconsg : consistent c ((var, value) :: a) = true := hcons
    have hac3g : ac3 c (fun v => if v = var then [value] else dom v) (initialQueue c)
        = (true, dom2) := hac3
    have hbtg : backtrack c dom2 ((var, value) :: a) = (some result, dom3) := hbt
    rw [tryValues_cons_rec_some c var value rest dom a hs dom2 dom3 result hconsg hac3g hbtg]
    simp
  · intro var dom a hs value rest a2 hcons dom1 dom2 hac3 snd hbt ih1 ih2 A wA hA hsup hg
      hsub hwA hmem
    have hconsg : consistent c ((var, value) :: a) = true := hcons
    have hac3g : ac3 c (fun v => if v = var then [value] else dom v) (initialQueue c)
        = (true, dom2) := hac3
    have hbtg : backtrack c dom2 ((var, value) :: a) = (none, snd) := hbt
    by_cases hval : value = wA
    · exfalso
      have hvalA : lookupA A var = some value := by
        rw [hval]
        exact hwA
      have hsup1 : Supports c A (fun v => if v = var then [value] else dom v) :=
        supports_restrict c A dom var value hsup hvalA
      have hsup2 := (ac3_supports c A _ (initialQueue c) hA (initialQueue_ok c) hsup1).2
      rw [hac3g] at hsup2
      have hg2 : GoodAssign c ((var, value) :: a) :=
        goodAssign_extend c a var value hg hs.2 hs.1 hconsg
      have hsub2 : SubAssign ((var, value) :: a) A := by
        intro p hp
        rcases List.mem_cons.mp hp with h1 | h1
        · rw [h1]
          exact hvalA
        · exact hsub p h1
      have hres := ih1 A hA hsup2 hg2 hsub2
      rw [hbtg] at hres
      simp at hres
    · have hmem2 : wA ∈ rest := by
        rcases List.mem_cons.mp hmem with h1 | h1
        · exact absurd h1.symm hval
        · exact h1
      rw [tryValues_cons_rec_none c var value rest dom a hs dom2 snd hconsg hac3g hbtg]
      exact ih2 A wA hA hsup hg hsub hwA hmem2
  · intro var dom a hs value rest a2 hcons dom1 snd hac3 ih A wA hA hsup hg hsub hwA hmem
    have hconsg : consistent c ((var, value) :: a) = true := hcons
    have hac3g : ac3 c (fun v => if v = var then [value] else dom v) (initialQueue c)
        = (false, snd) := hac3
    by_cases hval : value = wA
    · exfalso
      have hvalA : lookupA A var = some value := by
        rw [hval]
        exact hwA
      have hsup1 : Supports c A (fun v => if v = var then [value] else dom v) :=
        supports_restrict c A dom var value hsup hvalA
      have h1 := (ac3_supports c A _ (initialQueue c) hA (initialQueue_ok c) hsup1).1
      rw [hac3g] at h1
      simp at h1
    · have hmem2 : wA ∈ rest := by
        rcases List.mem_cons.mp hmem with h1 | h1
        · exact absurd h1.symm hval
        · exact h1
      rw [tryValues_cons_ac3false c var value rest dom a hs snd hconsg hac3g]
      exact ih A wA hA hsup hg hsub hwA hmem2
  · intro var dom a hs value rest a2 hcons ih A wA hA hsup hg hsub hwA hmem
    by_cases hval : value = wA
    · exfalso
      apply hcons
      have hvalA : lookupA A var = some value := by
        rw [hval]
        exact hwA
      have hsub2 : SubAssign ((var, value) :: a) A := by
        intro p hp
        rcases List.mem_cons.mp hp with h1 | h1
        · rw [h1]
          exact hvalA
        · exact hsub p h1
      have hnd : (((var, value) :: a).map Prod.fst).Nodup := by
        simp only [List.map_cons, List.nodup_cons]
        exact ⟨lookupA_none_not_mem a var hs.1, hg.2.1⟩
      exact consistent_of_sub c A ((var, value) :: a) hA hsub2 hnd
    · have hmem2 : wA ∈ rest := by
        rcases List.mem_cons.mp hmem with h1 | h1
        · exact absurd h1.symm hval
        · exact h1
      rw [tryValues_cons_incons c var value rest dom a hs (Bool.eq_false_iff.mpr hcons)]
      exact ih A wA hA hsup hg hsub hwA hmem2

/-- C2.  Completeness of the search: if solve returns the no-solution
signal none, then no complete valid assignment of dictionary words to the
crossword variables exists (one word per variable, pairwise distinct
words, correct lengths, matching overlap characters). -/
theorem claim_C2 (c : Crossword) (hnone : solve c = none) :
    ∀ A, ¬ completeValid c A := by
  intro A hA
  have hsup1 : Supports c A (enforce_node_consistency c (initialDomains c)) :=
    supports_enforce c A (initialDomains c) hA (supports_initial c A hA)
  have hac := ac3_supports c A (enforce_node_consistency c (initialDomains c))
    (initialQueue c) hA (initialQueue_ok c) hsup1
  have hg0 : GoodAssign c [] := ⟨consistent_nil c, by simp, by simp⟩
  have hsub0 : SubAssign [] A := by
    intro p hp
    cases hp
  have hbt := backtrack_complete_some c
    ((ac3 c (enforce_node_consistency c (initialDomains c)) (initialQueue c)).2) []
    A hA hac.2 hg0 hsub0
  have h1 : (backtrack c
      ((ac3 c (enforce_node_consistency c (initialDomains c)) (initialQueue c)).2) []).1
      = none := hnone
  rw [h1] at hbt
  simp at hbt

theorem claim_C2_witness : ¬ completeValid cwEmpty [((vA3 : Variable), wCAT)] := by
  have hq : initialQueue cwEmpty = [] := rfl
  have hord : order_domain_values cwEmpty
      (enforce_node_consistency cwEmpty (initialDomains cwEmpty)) vA3 [] = [] := by
    unfold order_domain_values
    have hd : enforce_node_consistency cwEmpty (initialDomains cwEmpty) vA3 = [] := by decide
    rw [hd]
    simp
  have hnone : solve cwEmpty = none := by
    show (backtrack cwEmpty
        (ac3 cwEmpty (enforce_node_consistency cwEmpty (initialDomains cwEmpty))
          (initialQueue cwEmpty)).2 []).1 = none
    rw [hq, ac3_nil]
    rw [backtrack_selsome cwEmpty (enforce_node_consistency cwEmpty (initialDomains cwEmpty))
      [] vA3 (by decide) (by decide)]
    rw [hord, tryValues_nil]
  exact claim_C2 cwEmpty hnone [(vA3, wCAT)]

theorem claim_C4_witness :
    (backtrack cwEmpty (enforce_node_consistency cwEmpty (initialDomains cwEmpty)) []).2 vA3
      = enforce_node_consistency cwEmpty (initialDomains cwEmpty) vA3 := by
  have hord : order_domain_values cwEmpty
      (enforce_node_consistency cwEmpty (initialDomains cwEmpty)) vA3 [] = [] := by
    unfold order_domain_values
    have hd : enforce_node_consistency cwEmpty (initialDomains cwEmpty) vA3 = [] := by decide
    rw [hd]
    simp
  have hnone : (backtrack cwEmpty
      (enforce_node_consistency cwEmpty (initialDomains cwEmpty)) []).1 = none := by
    rw [backtrack_selsome cwEmpty (enforce_node_consistency cwEmpty (initialDomains cwEmpty))
      [] vA3 (by decide) (by decide)]
    rw [hord, tryValues_nil]
  exact (claim_C4 cwEmpty vA3 wCAT []
    (enforce_node_consistency cwEmpty (initialDomains cwEmpty)) [] (by decide)).2 hnone vA3

theorem claim_C6_witness :
    lenOK cwTwo (enforce_node_consistency cwTwo (initialDomains cwTwo)) ∧
    lenOK cwTwo (fun v => if v = vA3 then [wCAT]
      else enforce_node_consistency cwTwo (initialDomains cwTwo) v) ∧
    lenOK cwTwo
      (backtrack cwTwo (enforce_node_consistency cwTwo (initialDomains cwTwo)) []).2 := by
  refine ⟨(claim_C6 cwTwo).1 (initialDomains cwTwo), ?_, ?_⟩
  · exact (claim_C6 cwTwo).2.2.2.1 (enforce_node_consistency cwTwo (initialDomains cwTwo))
      vA3 wCAT (by decide) ((claim_C6 cwTwo).1 (initialDomains cwTwo))
  · exact (claim_C6 cwTwo).2.2.2.2 (enforce_node_consistency cwTwo (initialDomains cwTwo))
      [] ((claim_C6 cwTwo).1 (initialDomains cwTwo))

theorem claim_C8_witness :
    ∃ v, select_unassigned_variable cwTwo (initialDomains cwTwo) [] = some v ∧
      v ∈ cwTwo.vars ∧ lookupA [] v = none ∧
      ∀ w ∈ cwTwo.vars, lookupA [] w = none →
        ((initialDomains cwTwo) v).length ≤ ((initialDomains cwTwo) w).length ∧
        (((initialDomains cwTwo) w).length = ((initialDomains cwTwo) v).length →
          (neighbors cwTwo w).length ≤ (neighbors cwTwo v).length) :=
  claim_C8 cwTwo (initialDomains cwTwo) [] (by decide)

theorem claim_C10_witness :
    (revise cwOne (initialDomains cwOne) vA3 vD3).2 vD3 = (initialDomains cwOne) vD3 ∧
    revise cwOne (initialDomains cwOne) vA3 vD3 = (false, initialDomains cwOne) :=
  ⟨(claim_C10 cwOne (initialDomains cwOne) vA3 vD3).1 vD3 (by decide),
   (claim_C10 cwOne (initialDomains cwOne) vA3 vD3).2 rfl⟩
